import Mathlib

/-!
# aldor/something: saved-posts mirror and token updater

A shallow embedding of the Go packages `reddit` (token updater, saved-posts
iterator) and `rss/srv/cache` (bolt-backed mirror and feed snapshot), followed by
theorems about them.

Conventions of the embedding:

* Go `error` results become `Except`; a run-time panic (index out of range, nil
  dereference) is the separate failure `Fail.panic`.
* Pointer receivers that are mutated become explicit state passing.
* `map[string]interface{}` is an association list; a JSON value is either a string
  or something else (the code only ever type-asserts `string`).
* The outside world (HTTP endpoints, commit of a bolt transaction) is an explicit
  argument.
* Unbounded `for` loops take a fuel argument and fail with `Fail.fuel` when it
  runs out.
-/

set_option autoImplicit false

deriving instance DecidableEq for Except

namespace Something

/-! ## Failures -/

/-- Ways a call can fail: an `error` value, a run-time panic, or the embedding
running out of fuel in an unbounded loop. -/
inductive Fail where
  | err (msg : String)
  | panic (msg : String)
  | fuel
  deriving DecidableEq, Repr

/-- Wrapping of an error by `fmt.Errorf(prefix + "%s", err)`; a panic stays a panic. -/
def Fail.wrap (pre : String) : Fail → Fail
  | .err m => .err (pre ++ m)
  | .panic m => .panic m
  | .fuel => .fuel

/-! ## Package `reddit`: saved posts -/

/-- A decoded JSON value held in an `interface{}`: a string, or any other value
(null, bool, number, array, object), kept as an uninterpreted tag. -/
inductive Value where
  | str (s : String)
  | other (tag : Nat)
  deriving DecidableEq, Repr

/-- Go `type Post struct { Kind string; Data map[string]interface{} }`. -/
structure Post where
  Kind : String
  Data : List (String × Value)
  deriving DecidableEq, Repr

/-- Go `const PostKind = "t3"`: the kind of a link post. -/
def PostKind : String := "t3"

/-- Go `const CommentKind = "t1"`: the kind of a comment. -/
def CommentKind : String := "t1"

/-- The anonymous `Data` struct of `userSavedResponse`. -/
structure userSavedData where
  After : String
  Before : String
  Dist : Int
  Children : List Post
  deriving DecidableEq, Repr

/-- Go `type userSavedResponse struct`. -/
structure userSavedResponse where
  Kind : String
  Data : userSavedData
  deriving DecidableEq, Repr

/-- Go `type getUserSavedRequest struct`. -/
structure getUserSavedRequest where
  User : String
  After : String
  deriving DecidableEq, Repr

/-- What one HTTP exchange produced: a transport error, or a response with a status
code and a body; the body is `none` when it is not JSON for the target type. -/
inductive HttpResult (β : Type) where
  | transportError (msg : String)
  | response (status : Nat) (body : Option β)
  deriving DecidableEq

/-- The fields of `AppConfig` the modelled code reads. -/
structure AppConfig where
  Username : String
  deriving DecidableEq, Repr

/-- Go `type Client struct`, reduced to its configuration; the HTTP client is the
`saved` endpoint passed alongside. -/
structure Client where
  cfg : AppConfig
  deriving DecidableEq, Repr

/-- The saved-items endpoint: the exchange that answers a request. -/
abbrev SavedEndpoint := getUserSavedRequest → HttpResult userSavedResponse

/-- Go `func (c *Client) getUserSaved(req getUserSavedRequest)`. The request is
`GET /user/{User}/saved[?after=After]`. -/
def Client.getUserSaved (_c : Client) (saved : SavedEndpoint) (req : getUserSavedRequest) :
    Except Fail userSavedResponse :=
  match saved req with
  | .transportError e => .error (.err ("failed to make request: " ++ e))
  | .response status body =>
    if status ≠ 200 then .error (.err "request finished with status")
    else match body with
      | none => .error (.err "failed to parse json")
      | some result => .ok result

/-- Go `type UserSavedResponse struct`. `requests` is instrumentation, not a Go
field: the requests issued through this value so far, oldest first. -/
structure UserSavedResponse where
  client : Client
  data : userSavedResponse
  processed : Nat
  requests : List getUserSavedRequest
  deriving DecidableEq, Repr

/-- The tail of `NextPost`: `post := u.data.Data.Children[u.processed]; u.processed++`.
Indexing past the end of the slice panics. -/
def UserSavedResponse.take (u : UserSavedResponse) :
    Except Fail (Option Post × UserSavedResponse) :=
  match u.data.Data.Children.get? u.processed with
  | none => .error (.panic "index out of range")
  | some post => .ok (some post, { u with processed := u.processed + 1 })

/-- Go `func (u *UserSavedResponse) NextPost() (*Post, error)`. -/
def UserSavedResponse.NextPost (saved : SavedEndpoint) (u : UserSavedResponse) :
    Except Fail (Option Post × UserSavedResponse) :=
  if (u.processed : Int) ≥ u.data.Data.Dist then
    if u.data.Data.After = "" then .ok (none, u)
    else
      let request : getUserSavedRequest :=
        { User := u.client.cfg.Username, After := u.data.Data.After }
      match u.client.getUserSaved saved request with
      | .error _ => .error (.err "failed to get new posts")
      | .ok data =>
        UserSavedResponse.take
          { u with processed := 0, data := data, requests := u.requests ++ [request] }
  else UserSavedResponse.take u

/-- Go `func (c *Client) GetUserSaved(user string) (UserSavedResponse, error)`. -/
def Client.GetUserSaved (c : Client) (saved : SavedEndpoint) (user : String) :
    Except Fail UserSavedResponse :=
  let request : getUserSavedRequest := { User := user, After := "" }
  match c.getUserSaved saved request with
  | .error e => .error (e.wrap "failed to get user saved: ")
  | .ok rawSaved =>
    .ok { client := c, data := rawSaved, processed := 0, requests := [request] }

/-- Repeated calls of `NextPost` until it reports the end: the posts produced, in
order, and the final state of the response. -/
def drain (saved : SavedEndpoint) : Nat → UserSavedResponse →
    Except Fail (List Post × UserSavedResponse)
  | 0, _ => .error .fuel
  | fuel + 1, u =>
    match u.NextPost saved with
    | .error e => .error e
    | .ok (none, u1) => .ok ([], u1)
    | .ok (some post, u1) =>
      match drain saved fuel u1 with
      | .error e => .error e
      | .ok (posts, u2) => .ok (post :: posts, u2)

/-! ## Package `cache`: field access and display derivation -/

/-- Go `func getStringField(value map[string]interface{}, name string) *string`. -/
def getStringField (value : List (String × Value)) (name : String) : Option String :=
  match value.lookup name with
  | none => none
  | some (.str s) => some s
  | some (.other _) => none

/-- Go `func getID(p *reddit.Post) *string`. -/
def getID (p : Post) : Option String := getStringField p.Data "id"

/-- Go `func getPostTitle(p *reddit.Post) string`. -/
def getPostTitle (p : Post) : String :=
  if p.Kind = PostKind then
    match getStringField p.Data "title" with
    | some title => title
    | none => "Reddit post"
  else if p.Kind = CommentKind then
    match getStringField p.Data "link_title" with
    | some title => title
    | none => "comment"
  else "Reddit post"

/-- Go `func getPostLink(p *reddit.Post) string`. -/
def getPostLink (p : Post) : String :=
  if p.Kind = PostKind then
    match getStringField p.Data "permalink" with
    | some link => "https://reddit.com" ++ link
    | none => ""
  else if p.Kind = CommentKind then
    match getStringField p.Data "link_permalink" with
    | some link => link
    | none => ""
  else ""

/-! ## bolt: buckets, transactions -/

/-- A byte string, one natural number below 256 per byte. -/
abbrev Bytes := List Nat

/-- Bytewise lexicographic order, `bytes.Compare(a, b) < 0`: the order of the keys
of a bucket, followed by a forward cursor. -/
def bytesLt : Bytes → Bytes → Bool
  | [], [] => false
  | [], _ :: _ => true
  | _ :: _, [] => false
  | a :: as, b :: bs => if a < b then true else if a = b then bytesLt as bs else false

/-- What a bucket needs of its keys: the byte order and the byte length. A string
key stands for its UTF-8 bytes, whose order is the order of the code points. -/
class BoltKey (κ : Type) where
  lt : κ → κ → Bool
  size : κ → Nat

instance instBoltKeyBytes : BoltKey Bytes where
  lt := bytesLt
  size := List.length

instance instBoltKeyString : BoltKey String where
  lt a b := bytesLt (a.toList.map Char.toNat) (b.toList.map Char.toNat)
  size := String.utf8ByteSize

/-- Constant `MaxKeySize` of bolt. -/
def MaxKeySize : Nat := 32768

/-- A bolt bucket: its key/value pairs in cursor order and its sequence counter. -/
structure Bucket (κ ν : Type) where
  entries : List (κ × ν)
  sequence : Nat
  deriving DecidableEq, Repr

/-- A freshly created bucket. -/
def Bucket.empty {κ ν : Type} : Bucket κ ν := { entries := [], sequence := 0 }

/-- First value stored under a key. -/
def findKey {κ ν : Type} [DecidableEq κ] (key : κ) : List (κ × ν) → Option ν
  | [] => none
  | (k, v) :: rest => if key = k then some v else findKey key rest

/-- bolt `Bucket.Get`: `none` is the nil slice returned for a missing key. -/
def Bucket.Get {κ ν : Type} [DecidableEq κ] (b : Bucket κ ν) (key : κ) : Option ν :=
  findKey key b.entries

/-- Insertion of a pair at its place in key order, replacing the value of a key
that is present. -/
def insertEntry {κ ν : Type} [DecidableEq κ] [BoltKey κ] (key : κ) (value : ν) :
    List (κ × ν) → List (κ × ν)
  | [] => [(key, value)]
  | (k, v) :: rest =>
    if key = k then (key, value) :: rest
    else if BoltKey.lt key k then (key, value) :: (k, v) :: rest
    else (k, v) :: insertEntry key value rest

/-- bolt `Bucket.Put` in a writable transaction: a blank key is `ErrKeyRequired`, a
key above `MaxKeySize` bytes is `ErrKeyTooLarge` (the size limit on values is not
modelled). -/
def Bucket.Put {κ ν : Type} [DecidableEq κ] [BoltKey κ] (b : Bucket κ ν) (key : κ) (value : ν) :
    Except Fail (Bucket κ ν) :=
  if BoltKey.size key = 0 then .error (.err "key required")
  else if BoltKey.size key > MaxKeySize then .error (.err "key too large")
  else .ok { b with entries := insertEntry key value b.entries }

/-- bolt `Bucket.NextSequence` in a writable transaction: the counter is a `uint64`,
incremented and returned. -/
def Bucket.NextSequence {κ ν : Type} (b : Bucket κ ν) : Except Fail (Nat × Bucket κ ν) :=
  let next := (b.sequence + 1) % 2 ^ 64
  .ok (next, { b with sequence := next })

/-- A stored value of the content bucket: the JSON text of a post, identified with
the post it encodes, or bytes that do not decode to a post. -/
inductive Raw where
  | json (p : Post)
  | garbage (b : Bytes)
  deriving DecidableEq, Repr

/-- Go `json.Marshal(post)`; a post decoded from JSON always encodes. -/
def jsonMarshal (post : Post) : Except Fail Raw := .ok (.json post)

/-- Go `json.Unmarshal(v, post)`. -/
def jsonUnmarshal : Raw → Except Fail Post
  | .json p => .ok p
  | .garbage _ => .error (.err "invalid character")

/-- The database file: the two root buckets, `none` while a bucket does not exist. -/
structure DB where
  index : Option (Bucket String Bytes)
  posts : Option (Bucket Bytes Raw)
  deriving DecidableEq, Repr

/-- A database file without buckets. -/
def DB.empty : DB := { index := none, posts := none }

/-- bolt `Tx.CreateBucketIfNotExists`, for a bucket slot of the transaction. -/
def CreateBucketIfNotExists {κ ν : Type} (slot : Option (Bucket κ ν)) : Except Fail (Bucket κ ν) :=
  match slot with
  | some b => .ok b
  | none => .ok Bucket.empty

/-- bolt `DB.Update`: the function runs on a private copy; its error, or a failed
commit, rolls everything back. The second argument of `fn`'s result is passed
through (instrumentation). -/
def DB.Update {α : Type} (db : DB) (commit : Bool) (fn : DB → Except Fail (DB × α)) :
    DB × Except Fail α :=
  match fn db with
  | .error e => (db, .error e)
  | .ok (tx, a) => if commit then (tx, .ok a) else (db, .error (.err "commit failed"))

/-! ## Package `cache`: the mirror -/

/-- Go `func itob(v uint64) []byte`: `binary.BigEndian.PutUint64`. -/
def itob (v : Nat) : Bytes :=
  [v / 2 ^ 56 % 256, v / 2 ^ 48 % 256, v / 2 ^ 40 % 256, v / 2 ^ 32 % 256,
   v / 2 ^ 24 % 256, v / 2 ^ 16 % 256, v / 2 ^ 8 % 256, v % 256]

/-- The loop of `getNewPosts`, with the slice built so far. -/
def getNewPostsLoop (saved : SavedEndpoint) (postsIndex : Bucket String Bytes) :
    Nat → UserSavedResponse → List Post → Except Fail (List Post × UserSavedResponse)
  | 0, _, _ => .error .fuel
  | fuel + 1, savedPosts, newPosts =>
    match savedPosts.NextPost saved with
    | .error e => .error (e.wrap "get saved post: ")
    | .ok (none, savedPosts) => .ok (newPosts, savedPosts)
    | .ok (some post, savedPosts) =>
      match getID post with
      | none => getNewPostsLoop saved postsIndex fuel savedPosts newPosts
      | some id =>
        if (postsIndex.Get id).isSome then .ok (newPosts, savedPosts)
        else getNewPostsLoop saved postsIndex fuel savedPosts (newPosts ++ [post])

/-- Go `func getNewPosts(postsIndex *bolt.Bucket, savedPosts reddit.UserSavedResponse)`.
Besides the new posts the final state of the (local) iterator is returned. -/
def getNewPosts (saved : SavedEndpoint) (fuel : Nat) (postsIndex : Bucket String Bytes)
    (savedPosts : UserSavedResponse) : Except Fail (List Post × UserSavedResponse) :=
  getNewPostsLoop saved postsIndex fuel savedPosts []

/-- The `for _, post := range newPosts` loop of `update`. Besides the two buckets
the sequence numbers handed out are returned, in order (instrumentation). -/
def storePosts : List Post → Bucket String Bytes → Bucket Bytes Raw →
    Except Fail (Bucket String Bytes × Bucket Bytes Raw × List Nat)
  | [], index, posts => .ok (index, posts, [])
  | post :: rest, index, posts =>
    match getID post with
    | none => .error (.err "failed to get post id")
    | some redditID =>
      match jsonMarshal post with
      | .error e => .error (e.wrap "failed to marshal post: ")
      | .ok value =>
        match posts.NextSequence with
        | .error e => .error (e.wrap "get next post id: ")
        | .ok (postIDRaw, posts) =>
          let postID := itob postIDRaw
          match posts.Put postID value with
          | .error e => .error (e.wrap "put new post: ")
          | .ok posts =>
            match index.Put redditID postID with
            | .error e => .error (e.wrap "put new post id: ")
            | .ok index =>
              match storePosts rest index posts with
              | .error e => .error e
              | .ok (index, posts, ids) => .ok (index, posts, postIDRaw :: ids)

/-- What the transaction of `update` reports besides the new database state
(instrumentation): the batch of new posts, the iterator after the batch was
collected, and the sequence numbers handed out. -/
structure Batch where
  newPosts : List Post
  savedPosts : UserSavedResponse
  ids : List Nat
  deriving DecidableEq, Repr

/-- The function `update` passes to `db.Update`. -/
def updateTx (saved : SavedEndpoint) (fuel : Nat) (savedPosts : UserSavedResponse) (tx : DB) :
    Except Fail (DB × Batch) :=
  match CreateBucketIfNotExists tx.index with
  | .error e => .error e
  | .ok index =>
    match CreateBucketIfNotExists tx.posts with
    | .error e => .error e
    | .ok posts =>
      match getNewPosts saved fuel index savedPosts with
      | .error e => .error (e.wrap "get new posts: ")
      | .ok (newPosts, savedPosts) =>
        match storePosts newPosts index posts with
        | .error e => .error e
        | .ok (index, posts, ids) =>
          .ok ({ index := some index, posts := some posts },
               { newPosts := newPosts, savedPosts := savedPosts, ids := ids })

/-- Go `feeds.Item`, reduced to title and link. -/
structure Item where
  Title : String
  Link : String
  deriving DecidableEq, Repr

/-- Go `feeds.Feed`, reduced to title, link and items. -/
structure Feed where
  Title : String
  Link : String
  Items : List Item
  deriving DecidableEq, Repr

/-- Go `type RedditRSS struct`: client, database, user and the published feed
(`none` is the nil pointer before the first build). -/
structure RedditRSS where
  client : Client
  db : DB
  user : String
  feed : Option Feed
  deriving DecidableEq, Repr

/-- Go `func (c *RedditRSS) GetFeed() *feeds.Feed`. -/
def RedditRSS.GetFeed (c : RedditRSS) : Option Feed := c.feed

/-- The cursor loop of `buildPostsFeed`: one item per record, in cursor order. -/
def feedItems : List (Bytes × Raw) → Except Fail (List Item)
  | [] => .ok []
  | (_, v) :: rest =>
    match jsonUnmarshal v with
    | .error e => .error (e.wrap "failed to unmarshal post: ")
    | .ok post =>
      match feedItems rest with
      | .error e => .error e
      | .ok items => .ok ({ Title := getPostTitle post, Link := getPostLink post } :: items)

/-- Go `func (c *RedditRSS) buildPostsFeed() error`: the state afterwards and the
error returned. A missing content bucket is a nil dereference. -/
def RedditRSS.buildPostsFeed (c : RedditRSS) : RedditRSS × Option Fail :=
  match c.db.posts with
  | none => (c, some (.panic "nil pointer dereference"))
  | some b =>
    match feedItems b.entries with
    | .error e => (c, some e)
    | .ok items =>
      let feed : Feed :=
        { Title := c.user ++ "\x27s reddit saved posts",
          Link := "https://www.reddit.com/user/" ++ c.user ++ "/saved/",
          Items := items }
      ({ c with feed := some feed }, none)

/-- The outside world during one synchronization cycle: the saved-items endpoint
and whether the commit of the write transaction succeeds. -/
structure World where
  saved : SavedEndpoint
  commit : Bool

/-- The stage of `update` an error comes from, after the three wrappers
`get user saved posts`, `update posts cache` and `build redit posts rss`. -/
inductive Stage where
  | fetch
  | store
  | build
  deriving DecidableEq, Repr

/-- Outcome of one cycle: the state afterwards, the error returned with its stage,
and the report of the transaction when it committed (instrumentation). -/
structure Cycle where
  cache : RedditRSS
  err : Option (Stage × Fail)
  batch : Option Batch

/-- Go `func (c *RedditRSS) update() error`. -/
def RedditRSS.update (w : World) (fuel : Nat) (c : RedditRSS) : Cycle :=
  match c.client.GetUserSaved w.saved c.user with
  | .error e => { cache := c, err := some (.fetch, e.wrap "get user saved posts: "), batch := none }
  | .ok savedPosts =>
    match c.db.Update w.commit (updateTx w.saved fuel savedPosts) with
    | (_, .error e) =>
      { cache := c, err := some (.store, e.wrap "update posts cache: "), batch := none }
    | (db, .ok batch) =>
      match RedditRSS.buildPostsFeed { c with db := db } with
      | (c1, some e) =>
        { cache := c1, err := some (.build, e.wrap "build redit posts rss: "), batch := some batch }
      | (c1, none) => { cache := c1, err := none, batch := some batch }

/-! ## Package `reddit`: token updater -/

/-- Go `time.Duration`: signed 64-bit nanoseconds. -/
abbrev Duration := Int

/-- Go `time.Second`. -/
def Second : Duration := 1000000000

/-- Wrap-around of a signed 64-bit result. -/
def wrapInt64 (x : Int) : Int := (x + 2 ^ 63) % 2 ^ 64 - 2 ^ 63

/-- Go `type tokenResponse struct`. -/
structure tokenResponse where
  AccessToken : String
  ExpiresIn : Int
  deriving DecidableEq, Repr

/-- A JSON object as the token endpoint sends it: the members `access_token` and
`expires_in`, each `none` when the object lacks it. -/
structure TokenJSON where
  access_token : Option String
  expires_in : Option Int
  deriving DecidableEq, Repr

/-- Go `json.Unmarshal(body, &tokenResp)` on `tokenResponse{}`: a missing member
leaves the zero value; a number outside `int` is an error. -/
def decodeToken (j : TokenJSON) : Except Fail tokenResponse :=
  match j.expires_in with
  | none => .ok { AccessToken := j.access_token.getD "", ExpiresIn := 0 }
  | some n =>
    if -(2 ^ 63) ≤ n ∧ n < 2 ^ 63 then .ok { AccessToken := j.access_token.getD "", ExpiresIn := n }
    else .error (.err "cannot unmarshal number")

/-- What one exchange with the token endpoint produced: a transport error, a body
that could not be read, or a status with a body: `some` for a JSON object whose
members `access_token` and `expires_in`, where present, are a string and an
integer, `none` for anything `json.Unmarshal` rejects. -/
inductive TokenExchange where
  | transportError (msg : String)
  | readError (msg : String)
  | response (status : Nat) (body : Option TokenJSON)
  deriving DecidableEq, Repr

/-- Go `type tokenator struct`, reduced to the stored token. -/
structure tokenator where
  token : String
  deriving DecidableEq, Repr

/-- Go `func (t *tokenator) GetToken() string`. -/
def tokenator.GetToken (t : tokenator) : String := t.token

/-- Go `func (t *tokenator) UpdateToken() (time.Duration, error)`: the state
afterwards and the result; every error path returns the zero duration. -/
def tokenator.UpdateToken (t : tokenator) (x : TokenExchange) :
    tokenator × Duration × Option Fail :=
  match x with
  | .transportError e => (t, 0, some (.err ("failed to do request " ++ e)))
  | .readError e => (t, 0, some (.err ("failed to read body " ++ e)))
  | .response status body =>
    if status ≠ 200 then (t, 0, some (.err "request finished with status"))
    else match body with
      | none => (t, 0, some (.err "failed to parse body"))
      | some j =>
        match decodeToken j with
        | .error e => (t, 0, some (e.wrap "failed to parse body "))
        | .ok tokenResp =>
          ({ t with token := tokenResp.AccessToken },
           wrapInt64 (tokenResp.ExpiresIn * Second), none)

/-- What the updater goroutine does, in order: a timer of the given duration ran
out, a refresh attempt was made (with the error it returned), or cancellation
was seen. -/
inductive Event where
  | timer (d : Duration)
  | refresh (err : Option Fail)
  | cancelled
  deriving DecidableEq, Repr

/-- One turn of the updater loop as the world decides it: whether cancellation wins
the first `select`, the exchange of the refresh, and whether cancellation wins
the `select` of the backoff. -/
structure Round where
  cancelSleep : Bool
  exchange : TokenExchange
  cancelBackoff : Bool
  deriving DecidableEq, Repr

/-- The `for` loop of the goroutine started by `StartUpdater`, run for the given
rounds, from the current value of the captured variable `expiresIn`. -/
def updaterLoop : List Round → Duration → tokenator → tokenator × List Event
  | [], _, t => (t, [])
  | r :: rest, expiresIn, t =>
    let sleepFor := Int.tdiv expiresIn 2
    if r.cancelSleep then (t, [.cancelled])
    else
      match t.UpdateToken r.exchange with
      | (t1, expiresIn1, some e) =>
        let sleepFor1 : Duration := 10 * Second
        if r.cancelBackoff then (t1, [.timer sleepFor, .refresh (some e), .cancelled])
        else
          let (t2, evs) := updaterLoop rest expiresIn1 t1
          (t2, .timer sleepFor :: .refresh (some e) :: .timer sleepFor1 :: evs)
      | (t1, expiresIn1, none) =>
        let (t2, evs) := updaterLoop rest expiresIn1 t1
        (t2, .timer sleepFor :: .refresh none :: evs)

/-- Go `func (t *tokenator) StartUpdater(ctx context.Context) error`: the exchange
of the first, synchronous refresh and the rounds of the goroutine; the state
afterwards, the error returned and the events, first refresh included. -/
def tokenator.StartUpdater (t : tokenator) (first : TokenExchange) (rounds : List Round) :
    tokenator × Option Fail × List Event :=
  match t.UpdateToken first with
  | (t1, _, some e) => (t1, some (e.wrap "failed to init reddit token: "), [.refresh (some e)])
  | (t1, expiresIn, none) =>
    let (t2, evs) := updaterLoop rounds expiresIn t1
    (t2, none, .refresh none :: evs)

/-- Time a timer takes: `time.NewTimer(d)` with `d ≤ 0` fires at once. -/
def timerWait (d : Duration) : Duration := max d 0

/-- Waiting time before each refresh attempt after the first event of the list:
the timers that ran out since the attempt before, summed. `acc` is the sum so far. -/
def waitsFrom : Duration → List Event → List Duration
  | _, [] => []
  | acc, .timer d :: evs => waitsFrom (acc + timerWait d) evs
  | acc, .refresh _ :: evs => acc :: waitsFrom 0 evs
  | acc, .cancelled :: evs => waitsFrom acc evs

/-- Delay between each refresh attempt and the next, for a list of events that
starts with a refresh attempt. -/
def delays : List Event → List Duration
  | .refresh _ :: evs => waitsFrom 0 evs
  | _ => []

/-! # Vocabulary of the statements -/

/-! ## Views of the database -/

/-- The index bucket as a write transaction sees it after
`CreateBucketIfNotExists`. -/
def DB.indexBucket (db : DB) : Bucket String Bytes :=
  match db.index with
  | some b => b
  | none => Bucket.empty

/-- The content bucket as a write transaction sees it after
`CreateBucketIfNotExists`. -/
def DB.postsBucket (db : DB) : Bucket Bytes Raw :=
  match db.posts with
  | some b => b
  | none => Bucket.empty

/-- Value of the sequence counter of the content bucket; a bucket that does not
exist yet starts at zero when it is created. -/
def DB.sequence (db : DB) : Nat :=
  match db.posts with
  | some b => b.sequence
  | none => 0

/-! ## Chains of pages -/

/-- The pages after `p` are served along the `after` cursors: each page reports as
many children as it has, the next page answers the request for the configured
user with the cursor of the page before, and only the last cursor is empty. -/
def chainFrom (saved : SavedEndpoint) (cfgUser : String) :
    userSavedResponse → List userSavedResponse → Bool
  | p, [] => p.Data.Dist == (p.Data.Children.length : Int) && p.Data.After == ""
  | p, q :: rest =>
    p.Data.Dist == (p.Data.Children.length : Int) && p.Data.After != "" &&
    saved { User := cfgUser, After := p.Data.After } == .response 200 (some q) &&
    chainFrom saved cfgUser q rest

/-- The endpoint serves the saved list of `user` as the given finite chain of
pages: the first page answers the request without cursor. -/
def servesChain (saved : SavedEndpoint) (user cfgUser : String) : List userSavedResponse → Bool
  | [] => false
  | p :: rest =>
    saved { User := user, After := "" } == .response 200 (some p) && chainFrom saved cfgUser p rest

/-- All posts of a chain of pages, in page order. -/
def chainPosts (pages : List userSavedResponse) : List Post :=
  pages.flatMap (fun p => p.Data.Children)

/-- The post carries a string `id` that is a key of the index: the test on which
`getNewPosts` stops. -/
def known (index : Bucket String Bytes) (p : Post) : Bool :=
  match getID p with
  | some id => (index.Get id).isSome
  | none => false

/-- The post carries a string `id`. -/
def hasID (p : Post) : Bool := (getID p).isSome

/-- The iterator `u` stands in a chain of pages: `pre` are the pages it has left
behind, `cur` is the page it holds, of which `k` children are handed out, and
`rest` are the pages still to fetch, none of them empty. -/
structure AtPos (saved : SavedEndpoint) (u : UserSavedResponse)
    (pre : List userSavedResponse) (cur : userSavedResponse) (rest : List userSavedResponse)
    (k : Nat) : Prop where
  data : u.data = cur
  proc : u.processed = k
  le : k ≤ cur.Data.Children.length
  chain : chainFrom saved u.client.cfg.Username cur rest = true
  nonempty : ∀ q ∈ rest, q.Data.Children ≠ []
  reqs : u.requests.length = pre.length + 1

/-- The posts an iterator at a position has still to hand out. -/
def remaining (cur : userSavedResponse) (rest : List userSavedResponse) (k : Nat) : List Post :=
  cur.Data.Children.drop k ++ chainPosts rest

/-! ## Records of the content bucket -/

/-- The key/value pair `update` stores for a post under a sequence number. -/
def record (r : Nat × Post) : Bytes × Raw := (itob r.1, .json r.2)

/-- The feed item `buildPostsFeed` adds for a post. -/
def renderItem (p : Post) : Item := { Title := getPostTitle p, Link := getPostLink p }

/-- The records stored one after the other into a content bucket. -/
def putRecords : List (Nat × Post) → Bucket Bytes Raw → Except Fail (Bucket Bytes Raw)
  | [], b => .ok b
  | r :: rest, b =>
    match b.Put (itob r.1) (.json r.2) with
    | .error e => .error e
    | .ok b1 => putRecords rest b1

/-- Big-endian bytes of the `n` low-order base-256 digits of `v`. -/
def bigEndian : Nat → Nat → Bytes
  | 0, _ => []
  | n + 1, v => (v / 256 ^ n % 256) :: bigEndian n v

/-- The records of the content log whose post carries the given `id`. -/
def recordsWithID (db : DB) (id : String) : List (Bytes × Raw) :=
  db.postsBucket.entries.filter (fun e =>
    match jsonUnmarshal e.2 with
    | .ok p => getID p == some id
    | .error _ => false)

/-! ## Sequences of cycles -/

/-- Sequence numbers under which a cycle durably stored records: those of the
transaction when it committed, none when the cycle rolled back. -/
def Cycle.storedIds (r : Cycle) : List Nat :=
  match r.batch with
  | some b => b.ids
  | none => []

/-- Batch of new posts of a cycle whose transaction committed. -/
def Cycle.storedPosts (r : Cycle) : List Post :=
  match r.batch with
  | some b => b.newPosts
  | none => []

/-- Cycles run one after the other, each in its own world, failed ones included:
the final state and the sequence numbers of the stored records in the order in
which they were stored. -/
def runCycles : List (World × Nat) → RedditRSS → RedditRSS × List Nat
  | [], c => (c, [])
  | (w, fuel) :: rest, c =>
    let r := c.update w fuel
    let (c1, ids) := runCycles rest r.cache
    (c1, r.storedIds ++ ids)

/-- The batches of new posts the cycles of a sequence durably stored, one per
cycle (empty for a cycle that rolled back). -/
def storedBatches : List (World × Nat) → RedditRSS → List (List Post)
  | [], _ => []
  | (w, fuel) :: rest, c =>
    (c.update w fuel).storedPosts :: storedBatches rest (c.update w fuel).cache

/-- Index and content log agree: every record is a post stored under a sequence
number not above the counter and indexed under its id with that key; the counter
is a 64-bit value; no key occurs twice; and every index entry points to a
record of a post with that id. -/
structure Coherent (index : Bucket String Bytes) (posts : Bucket Bytes Raw) : Prop where
  recs : ∀ e ∈ posts.entries, ∃ (n : Nat) (p : Post) (id : String),
    e = (itob n, Raw.json p) ∧ n ≤ posts.sequence ∧ getID p = some id ∧
    index.Get id = some (itob n)
  bound : posts.sequence < 2 ^ 64
  nodup : (posts.entries.map Prod.fst).Nodup
  idx : ∀ id key, index.Get id = some key →
    ∃ p, (key, Raw.json p) ∈ posts.entries ∧ getID p = some id

/-! ## Schedule of the token updater -/

/-- Delay the token updater is to leave after an exchange, in nanoseconds: half of
`expires_in` seconds after a 200 response with a JSON object, the fixed ten
seconds after anything else. -/
def scheduledDelay : TokenExchange → Duration
  | .response 200 (some j) => j.expires_in.getD 0 * 500000000
  | _ => 10 * 1000000000

/-- The validity a token response announces lies between zero and the largest number
of seconds a `time.Duration` holds. -/
def validityInRange : TokenExchange → Prop
  | .response _ (some j) => ∀ n, j.expires_in = some n → 0 ≤ n ∧ n * 1000000000 < 2 ^ 63
  | _ => True

/-- A token response, when it is a 200 with a JSON object, carries a non-empty
`access_token`. -/
def carriesToken : TokenExchange → Prop
  | .response 200 (some j) => ∃ s, j.access_token = some s ∧ s ≠ ""
  | _ => True

/-! # Example inputs -/

/-- A page built from its cursor and its children, with `dist` their number. -/
def page (after : String) (children : List Post) : userSavedResponse :=
  { Kind := "Listing",
    Data := { After := after, Before := "", Dist := children.length, Children := children } }

/-- A link post with the given id and title. -/
def linkPost (id title : String) : Post :=
  { Kind := PostKind, Data := [("id", .str id), ("title", .str title)] }

/-- The client of the examples, configured for user `u`. -/
def exClient : Client := { cfg := { Username := "u" } }

/-- A cache over an empty database file, for user `u`. -/
def freshCache : RedditRSS :=
  { client := exClient, db := DB.empty, user := "u", feed := none }

/-- An endpoint that serves the given posts as a single page. -/
def singlePage (posts : List Post) : SavedEndpoint := fun req =>
  if req.After = "" then .response 200 (some (page "" posts)) else .response 404 none

/-- Example endpoint: one post on the first page, cursor `c1`, then an empty last
page. -/
def emptyTailEndpoint : SavedEndpoint := fun req =>
  if req.After = "" then .response 200 (some (page "c1" [linkPost "a" "A"]))
  else if req.After = "c1" then .response 200 (some (page "" []))
  else .response 404 none

/-- The pages `emptyTailEndpoint` serves. -/
def emptyTailPages : List userSavedResponse := [page "c1" [linkPost "a" "A"], page "" []]

/-- Example endpoint: post `a` on the first page, and an error for the second. -/
def brokenSecondPage : SavedEndpoint := fun req =>
  if req.After = "" then .response 200 (some (page "c1" [linkPost "a" "A"]))
  else .response 500 none

/-- Example endpoint: the remote list `[a, b, c, d]`, newest first, served as three
pages `[a, b]`, `[c]` and `[d]`. -/
def abcdEndpoint : SavedEndpoint := fun req =>
  if req.After = "" then .response 200 (some (page "c1" [linkPost "a" "A", linkPost "b" "B"]))
  else if req.After = "c1" then .response 200 (some (page "c2" [linkPost "c" "C"]))
  else if req.After = "c2" then .response 200 (some (page "" [linkPost "d" "D"]))
  else .response 404 none

/-- The pages `abcdEndpoint` serves. -/
def abcdPages : List userSavedResponse :=
  [page "c1" [linkPost "a" "A", linkPost "b" "B"], page "c2" [linkPost "c" "C"],
   page "" [linkPost "d" "D"]]

/-- An index that holds the ids `c` and `d`. -/
def indexCD : Bucket String Bytes :=
  { entries := [("c", itob 2), ("d", itob 1)], sequence := 0 }

/-- Three worlds, one per cycle: posts `a`, `b` are saved and the commit succeeds;
post `c` is saved on top and the commit fails; post `d` is saved on top and the
commit succeeds. -/
def threeCycles : List (World × Nat) :=
  [({ saved := singlePage [linkPost "b" "B", linkPost "a" "A"], commit := true }, 5),
   ({ saved := singlePage [linkPost "c" "C", linkPost "b" "B", linkPost "a" "A"],
      commit := false }, 5),
   ({ saved := singlePage [linkPost "d" "D", linkPost "c" "C", linkPost "b" "B",
        linkPost "a" "A"], commit := true }, 5)]

/-- A 200 token response with the given token and validity in seconds. -/
def tokenOK (token : String) (expiresIn : Int) : TokenExchange :=
  .response 200 (some { access_token := some token, expires_in := some expiresIn })

/-- A round without cancellation. -/
def round (x : TokenExchange) : Round :=
  { cancelSleep := false, exchange := x, cancelBackoff := false }

/-! # Theorems -/

/-! ## C7: title and link derivation -/

/-- C7: `getPostTitle` and `getPostLink` follow the discriminant. For kind `t3` the
title is the string attribute `title`, else `Reddit post`, and the link is
`https://reddit.com` followed by the string attribute `permalink`. For kind `t1`
the title is the string attribute `link_title`, else `comment`, and the link is
the string attribute `link_permalink` unchanged. For any other kind title and link
are `Reddit post` and the empty link, which are the values a link-kind item
falls back to when it has no string `title` and no string `permalink`. -/
theorem C7_title_link_derivation (p : Post) :
    (p.Kind = "t3" →
      (∀ s, p.Data.lookup "title" = some (.str s) → getPostTitle p = s) ∧
      ((∀ s, p.Data.lookup "title" ≠ some (.str s)) → getPostTitle p = "Reddit post") ∧
      (∀ s, p.Data.lookup "permalink" = some (.str s) →
        getPostLink p = "https://reddit.com" ++ s)) ∧
    (p.Kind = "t1" →
      (∀ s, p.Data.lookup "link_title" = some (.str s) → getPostTitle p = s) ∧
      ((∀ s, p.Data.lookup "link_title" ≠ some (.str s)) → getPostTitle p = "comment") ∧
      (∀ s, p.Data.lookup "link_permalink" = some (.str s) → getPostLink p = s)) ∧
    (p.Kind ≠ "t3" → p.Kind ≠ "t1" →
      getPostTitle p = "Reddit post" ∧ getPostLink p = "" ∧
      ∀ q : Post, q.Kind = "t3" →
        (∀ s, q.Data.lookup "title" ≠ some (.str s)) →
        (∀ s, q.Data.lookup "permalink" ≠ some (.str s)) →
        getPostTitle p = getPostTitle q ∧ getPostLink p = getPostLink q) := by
  have hne : ("t1" : String) ≠ "t3" := by decide
  have field : ∀ (d : List (String × Value)) (name : String),
      (∀ s, d.lookup name ≠ some (.str s)) → getStringField d name = none := by
    intro d name h
    unfold getStringField
    cases hl : d.lookup name with
    | none => rfl
    | some v =>
      cases v with
      | str s => exact absurd hl (h s)
      | other t => rfl
  have fieldS : ∀ (d : List (String × Value)) (name s : String),
      d.lookup name = some (.str s) → getStringField d name = some s := by
    intro d name s h
    simp [getStringField, h]
  refine ⟨?_, ?_, ?_⟩
  · intro hk
    refine ⟨?_, ?_, ?_⟩
    · intro s hs
      simp [getPostTitle, PostKind, hk, fieldS _ _ _ hs]
    · intro h
      simp [getPostTitle, PostKind, hk, field _ _ h]
    · intro s hs
      simp [getPostLink, PostKind, hk, fieldS _ _ _ hs]
  · intro hk
    refine ⟨?_, ?_, ?_⟩
    · intro s hs
      simp [getPostTitle, PostKind, CommentKind, hk, hne, fieldS _ _ _ hs]
    · intro h
      simp [getPostTitle, PostKind, CommentKind, hk, hne, field _ _ h]
    · intro s hs
      simp [getPostLink, PostKind, CommentKind, hk, hne, fieldS _ _ _ hs]
  · intro h3 h1
    refine ⟨by simp [getPostTitle, PostKind, CommentKind, h3, h1],
      by simp [getPostLink, PostKind, CommentKind, h3, h1], ?_⟩
    intro q hq ht hp
    constructor
    · simp [getPostTitle, PostKind, CommentKind, h3, h1, hq, field _ _ ht]
    · simp [getPostLink, PostKind, CommentKind, h3, h1, hq, field _ _ hp]

/-- C7 at a link post with title and permalink, and at a post of unknown kind with
the same attributes. -/
theorem C7_title_link_derivation_witness :
    getPostTitle { Kind := "t3", Data := [("title", .str "T"), ("permalink", .str "/r/x")] } = "T" ∧
    getPostLink { Kind := "t3", Data := [("title", .str "T"), ("permalink", .str "/r/x")] }
      = "https://reddit.com" ++ "/r/x" ∧
    getPostTitle { Kind := "t5", Data := [("title", .str "T"), ("permalink", .str "/r/x")] }
      = "Reddit post" ∧
    getPostLink { Kind := "t5", Data := [("title", .str "T"), ("permalink", .str "/r/x")] } = "" :=
  ⟨((C7_title_link_derivation
      { Kind := "t3", Data := [("title", .str "T"), ("permalink", .str "/r/x")] }).1 rfl).1
      "T" (by decide),
   ((C7_title_link_derivation
      { Kind := "t3", Data := [("title", .str "T"), ("permalink", .str "/r/x")] }).1 rfl).2.2
      "/r/x" (by decide),
   ((C7_title_link_derivation
      { Kind := "t5", Data := [("title", .str "T"), ("permalink", .str "/r/x")] }).2.2
      (by decide) (by decide)).1,
   ((C7_title_link_derivation
      { Kind := "t5", Data := [("title", .str "T"), ("permalink", .str "/r/x")] }).2.2
      (by decide) (by decide)).2.1⟩

/-! ## C6: the saved-posts iterator -/

/-- C6 fails on the code: the endpoint serves a well-formed chain of two pages whose
last page is empty; the first call of `NextPost` hands out the one post, and the
second call fetches the empty page, indexes it and panics instead of reporting
the end. -/
theorem C6_NextPost_panics_on_empty_page :
    servesChain emptyTailEndpoint "u" exClient.cfg.Username emptyTailPages = true ∧
    chainPosts emptyTailPages = [linkPost "a" "A"] ∧
    exClient.GetUserSaved emptyTailEndpoint "u"
      = .ok { client := exClient, data := page "c1" [linkPost "a" "A"], processed := 0,
              requests := [{ User := "u", After := "" }] } ∧
    UserSavedResponse.NextPost emptyTailEndpoint
        { client := exClient, data := page "c1" [linkPost "a" "A"], processed := 0,
          requests := [{ User := "u", After := "" }] }
      = .ok (some (linkPost "a" "A"),
          { client := exClient, data := page "c1" [linkPost "a" "A"], processed := 1,
            requests := [{ User := "u", After := "" }] }) ∧
    UserSavedResponse.NextPost emptyTailEndpoint
        { client := exClient, data := page "c1" [linkPost "a" "A"], processed := 1,
          requests := [{ User := "u", After := "" }] }
      = .error (.panic "index out of range") := by
  decide

/-! ## C10 and C9: the token updater -/

theorem UpdateToken_err_keeps (t : tokenator) (x : TokenExchange) (e : Fail)
    (h : (t.UpdateToken x).2.2 = some e) :
    (t.UpdateToken x).1 = t ∧ (t.UpdateToken x).2.1 = 0 := by
  unfold tokenator.UpdateToken at h ⊢
  cases x with
  | transportError m => exact ⟨rfl, rfl⟩
  | readError m => exact ⟨rfl, rfl⟩
  | response status body =>
    by_cases hs : status = 200
    · subst hs
      cases body with
      | none => exact ⟨rfl, rfl⟩
      | some j =>
        cases hd : decodeToken j with
        | error e1 => simp [hd]
        | ok r => simp [hd] at h
    · simp [hs]

theorem UpdateToken_ok_stores (t : tokenator) (x : TokenExchange)
    (h : (t.UpdateToken x).2.2 = none) :
    ∃ j r, x = .response 200 (some j) ∧ decodeToken j = .ok r ∧
      r.AccessToken = j.access_token.getD "" ∧
      (t.UpdateToken x).1 = { t with token := r.AccessToken } ∧
      (t.UpdateToken x).2.1 = wrapInt64 (r.ExpiresIn * Second) := by
  unfold tokenator.UpdateToken at h ⊢
  cases x with
  | transportError m => simp at h
  | readError m => simp at h
  | response status body =>
    by_cases hs : status = 200
    · subst hs
      cases body with
      | none => simp at h
      | some j =>
        cases hd : decodeToken j with
        | error e1 => simp [hd] at h
        | ok r =>
          refine ⟨j, r, rfl, hd, ?_, by simp [hd], by simp [hd]⟩
          unfold decodeToken at hd
          cases hn : j.expires_in with
          | none =>
            simp [hn] at hd
            rw [← hd]
          | some n =>
            simp only [hn] at hd
            split at hd
            · simp at hd
              rw [← hd]
            · simp at hd
    · simp [hs] at h

theorem UpdateToken_token_nonempty (t : tokenator) (x : TokenExchange)
    (ht : t.token ≠ "") (hx : carriesToken x) : (t.UpdateToken x).1.token ≠ "" := by
  cases h : (t.UpdateToken x).2.2 with
  | some e => rw [(UpdateToken_err_keeps t x e h).1]; exact ht
  | none =>
    obtain ⟨j, r, hxj, _, hr, hst, _⟩ := UpdateToken_ok_stores t x h
    subst hxj
    obtain ⟨s, hs, hne⟩ := hx
    rw [hst, hr, hs]
    simpa using hne

theorem updaterLoop_token_nonempty (rounds : List Round) :
    ∀ (expiresIn : Duration) (t : tokenator), t.token ≠ "" →
      (∀ r ∈ rounds, carriesToken r.exchange) →
      (updaterLoop rounds expiresIn t).1.token ≠ "" := by
  induction rounds with
  | nil => intro e t ht _; simpa [updaterLoop] using ht
  | cons r rest ih =>
    intro e t ht hr
    have h1 := UpdateToken_token_nonempty t r.exchange ht (hr r (List.mem_cons_self _ _))
    have hrest : ∀ r1 ∈ rest, carriesToken r1.exchange :=
      fun r1 h => hr r1 (List.mem_cons_of_mem _ h)
    unfold updaterLoop
    by_cases hc : r.cancelSleep = true
    · simpa [hc] using ht
    · simp only [hc]
      rcases hu : t.UpdateToken r.exchange with ⟨t1, e1, err⟩
      rw [hu] at h1
      cases err with
      | some er =>
        by_cases hb : r.cancelBackoff = true
        · simpa [hb] using h1
        · simpa [hb] using ih e1 t1 h1 hrest
      | none => simpa using ih e1 t1 h1 hrest

/-- C10 as stated fails on the code: a 200 response whose JSON object lacks
`access_token` makes the first refresh succeed, `StartUpdater` returns no error,
and `GetToken` returns the empty string. -/
theorem C10_empty_token_after_start :
    (tokenator.StartUpdater { token := "" }
      (.response 200 (some { access_token := none, expires_in := none })) []).2.1 = none ∧
    (tokenator.StartUpdater { token := "" }
      (.response 200 (some { access_token := none, expires_in := none })) []).1.GetToken = "" := by
  decide

/-- C10, amended: a refresh that fails leaves the stored token unchanged; a refresh
that succeeds answers a 200 response with a JSON object and stores the
`access_token` member that object carries; hence after `StartUpdater` returned no
error and after any rounds of the updater loop, `GetToken` is not empty provided
every 200 response with a JSON object carried a non-empty `access_token`. -/
theorem C10_token_set_when_responses_carry_it :
    (∀ (t : tokenator) (x : TokenExchange) (e : Fail),
      (t.UpdateToken x).2.2 = some e → (t.UpdateToken x).1.GetToken = t.GetToken) ∧
    (∀ (t : tokenator) (x : TokenExchange), (t.UpdateToken x).2.2 = none →
      ∃ j, x = .response 200 (some j) ∧
        ∀ s, j.access_token = some s → (t.UpdateToken x).1.GetToken = s) ∧
    (∀ (t : tokenator) (first : TokenExchange) (rounds : List Round),
      carriesToken first → (∀ r ∈ rounds, carriesToken r.exchange) →
      (t.StartUpdater first rounds).2.1 = none →
      (t.StartUpdater first rounds).1.GetToken ≠ "") := by
  refine ⟨?_, ?_, ?_⟩
  · intro t x e h
    rw [(UpdateToken_err_keeps t x e h).1]
  · intro t x h
    obtain ⟨j, r, hxj, _, hr, hst, _⟩ := UpdateToken_ok_stores t x h
    refine ⟨j, hxj, ?_⟩
    intro s hs
    rw [hst, hr, hs]
    rfl
  · intro t first rounds hf hr hok
    unfold tokenator.StartUpdater at hok ⊢
    rcases hu : t.UpdateToken first with ⟨t1, e1, err⟩
    rw [hu] at hok
    cases err with
    | some er => simp at hok
    | none =>
      have hnone : (t.UpdateToken first).2.2 = none := by rw [hu]
      obtain ⟨j, r, hxj, _, hrr, hst, _⟩ := UpdateToken_ok_stores t first hnone
      subst hxj
      obtain ⟨s, hs, hne⟩ := hf
      have ht1 : t1.token ≠ "" := by
        have : t1 = { t with token := r.AccessToken } := by rw [← hst, hu]
        rw [this, hrr, hs]
        simpa using hne
      simpa [tokenator.GetToken] using updaterLoop_token_nonempty rounds e1 t1 ht1 hr

/-- C10, amended, at a first refresh that succeeds, followed by a failed and a
successful one. -/
theorem C10_token_set_when_responses_carry_it_witness :
    (tokenator.StartUpdater { token := "" } (tokenOK "t1" 3600)
      [round (.response 500 none), round (tokenOK "t2" 3600)]).1.GetToken ≠ "" :=
  C10_token_set_when_responses_carry_it.2.2 { token := "" } (tokenOK "t1" 3600)
    [round (.response 500 none), round (tokenOK "t2" 3600)]
    ⟨"t1", rfl, by decide⟩
    (by
      intro r hr
      simp only [List.mem_cons, List.mem_singleton, List.not_mem_nil, or_false] at hr
      rcases hr with rfl | rfl
      · trivial
      · exact ⟨"t2", rfl, by decide⟩)
    (by decide)

theorem wrapInt64_seconds (n : Int) (h0 : 0 ≤ n) (h : n * 1000000000 < 2 ^ 63) :
    wrapInt64 (n * Second) = n * 1000000000 := by
  unfold wrapInt64 Second
  norm_num at h ⊢
  omega

theorem half_of_seconds (n : Int) (h0 : 0 ≤ n) :
    timerWait (Int.tdiv (n * 1000000000) 2) = n * 500000000 := by
  unfold timerWait
  rw [Int.tdiv_eq_ediv (by omega) (by omega)]
  have h : n * 1000000000 / 2 = n * 500000000 := by omega
  rw [h]
  exact max_eq_left (mul_nonneg h0 (by norm_num))

/-- After an exchange in range, the backoff spent (ten seconds after a failure,
nothing after a success) plus the half of the returned duration is the scheduled
delay. -/
theorem UpdateToken_delay (t : tokenator) (x : TokenExchange) (hx : validityInRange x) :
    (match (t.UpdateToken x).2.2 with
      | some _ => 10 * Second
      | none => 0) + timerWait (Int.tdiv (t.UpdateToken x).2.1 2) = scheduledDelay x := by
  cases h : (t.UpdateToken x).2.2 with
  | some e =>
    have hz := (UpdateToken_err_keeps t x e h).2
    have hsched : scheduledDelay x = 10 * 1000000000 := by
      unfold tokenator.UpdateToken at h
      cases x with
      | transportError m => rfl
      | readError m => rfl
      | response status body =>
        cases body with
        | none => unfold scheduledDelay; split <;> simp_all
        | some j =>
          by_cases hs : status = 200
          · subst hs
            exfalso
            cases hd : decodeToken j with
            | ok r => simp [hd] at h
            | error e1 =>
              unfold decodeToken at hd
              cases hn : j.expires_in with
              | none => simp [hn] at hd
              | some n =>
                have hr := hx n hn
                simp only [hn] at hd
                split at hd
                · simp at hd
                · rename_i hneg
                  apply hneg
                  constructor <;> [skip; skip] <;> omega
          · unfold scheduledDelay; split <;> simp_all
    rw [hz, hsched]
    simp [timerWait, Second]
  | none =>
    obtain ⟨j, r, hxj, hd, _, _, hdur⟩ := UpdateToken_ok_stores t x h
    subst hxj
    rw [hdur]
    unfold decodeToken at hd
    cases hn : j.expires_in with
    | none =>
      simp [hn] at hd
      rw [← hd]
      simp [scheduledDelay, hn, wrapInt64, Second, timerWait]
    | some n =>
      have hr := hx n hn
      simp only [hn] at hd
      split at hd
      · simp at hd
        rw [← hd]
        simp only [scheduledDelay, hn, Option.getD_some, zero_add]
        rw [wrapInt64_seconds n hr.1 hr.2, half_of_seconds n hr.1]
      · simp at hd

theorem updaterLoop_waits (rounds : List Round) :
    ∀ (expiresIn acc : Duration) (t : tokenator),
      (∀ r ∈ rounds, r.cancelSleep = false ∧ r.cancelBackoff = false) →
      (∀ r ∈ rounds, validityInRange r.exchange) →
      waitsFrom acc (updaterLoop rounds expiresIn t).2 =
        match rounds with
        | [] => []
        | _ :: _ =>
          (acc + timerWait (Int.tdiv expiresIn 2)) ::
            (rounds.dropLast.map (fun r => scheduledDelay r.exchange)) := by
  induction rounds with
  | nil => intro e acc t _ _; simp [updaterLoop, waitsFrom]
  | cons r rest ih =>
    intro e acc t hc hv
    have hcr := hc r (List.mem_cons_self _ _)
    have hdel := UpdateToken_delay t r.exchange (hv r (List.mem_cons_self _ _))
    have hc1 : ∀ r1 ∈ rest, r1.cancelSleep = false ∧ r1.cancelBackoff = false :=
      fun r1 h => hc r1 (List.mem_cons_of_mem _ h)
    have hv1 : ∀ r1 ∈ rest, validityInRange r1.exchange :=
      fun r1 h => hv r1 (List.mem_cons_of_mem _ h)
    unfold updaterLoop
    simp only [hcr.1, hcr.2, Bool.false_eq_true, if_false]
    rcases hu : t.UpdateToken r.exchange with ⟨t1, e1, err⟩
    rw [hu] at hdel
    cases err with
    | some er =>
      simp only [waitsFrom, zero_add]
      rw [ih e1 (timerWait (10 * Second)) t1 hc1 hv1]
      cases rest with
      | nil => simp
      | cons r2 rest2 =>
        simp only [List.dropLast_cons₂, List.map_cons]
        have : timerWait (10 * Second) = 10 * Second := by simp [timerWait, Second]
        rw [this]
        simp only at hdel
        rw [hdel]
    | none =>
      simp only [waitsFrom]
      rw [ih e1 0 t1 hc1 hv1]
      cases rest with
      | nil => simp
      | cons r2 rest2 =>
        simp only [List.dropLast_cons₂, List.map_cons]
        simp only at hdel
        rw [hdel]

/-- C9: with no cancellation and validities in the range of `time.Duration`, the
delay between each refresh attempt and the next depends on the earlier attempt
alone: half of `expires_in` seconds (`expires_in * 500000000` ns) after a 200
response with a JSON object, which is when the refresh succeeds, and the fixed
ten seconds after a failed refresh. -/
theorem C9_refresh_schedule (t : tokenator) (first : TokenExchange) (rounds : List Round)
    (hcancel : ∀ r ∈ rounds, r.cancelSleep = false ∧ r.cancelBackoff = false)
    (hfirst : validityInRange first)
    (hrounds : ∀ r ∈ rounds, validityInRange r.exchange)
    (hok : (t.StartUpdater first rounds).2.1 = none) :
    delays (t.StartUpdater first rounds).2.2 =
      ((first :: rounds.map (fun r => r.exchange)).dropLast).map scheduledDelay ∧
    (∀ x ∈ first :: rounds.map (fun r => r.exchange), ∀ t1 : tokenator,
      (t1.UpdateToken x).2.2 = none ↔ ∃ j, x = .response 200 (some j)) := by
  constructor
  · unfold tokenator.StartUpdater at hok ⊢
    have hdel := UpdateToken_delay t first hfirst
    rcases hu : t.UpdateToken first with ⟨t1, e1, err⟩
    rw [hu] at hok hdel
    cases err with
    | some er => simp at hok
    | none =>
      simp only [delays]
      rw [updaterLoop_waits rounds e1 0 t1 hcancel hrounds]
      cases rounds with
      | nil => simp
      | cons r rest =>
        simp only at hdel
        simp only [List.map_cons, List.dropLast_cons₂, hdel, List.map_dropLast, List.map_map]
        rfl
  · intro x hx t1
    have hv : validityInRange x := by
      rcases List.mem_cons.1 hx with h | h
      · rw [h]; exact hfirst
      · obtain ⟨r, hr, hrx⟩ := List.mem_map.1 h
        rw [← hrx]; exact hrounds r hr
    constructor
    · intro h
      obtain ⟨j, _, hxj, _⟩ := UpdateToken_ok_stores t1 x h
      exact ⟨j, hxj⟩
    · rintro ⟨j, rfl⟩
      unfold tokenator.UpdateToken decodeToken
      cases hn : j.expires_in with
      | none => simp [hn]
      | some n =>
        have hr := hv n hn
        have h1 : -9223372036854775808 ≤ n := by omega
        have h2 : n < 9223372036854775808 := by
          have := hr.2
          norm_num at this
          omega
        simp [hn, h1, h2]

/-- C9 at a first refresh with `expires_in` 3600, a failed refresh, and two refreshes
with `expires_in` 100: the delays are 1800 s, 10 s and 50 s. -/
theorem C9_refresh_schedule_witness :
    delays (tokenator.StartUpdater { token := "" } (tokenOK "t1" 3600)
      [round (.response 500 none), round (tokenOK "t2" 100), round (tokenOK "t3" 100)]).2.2
      = [1800 * 1000000000, 10 * 1000000000, 50 * 1000000000] :=
  (C9_refresh_schedule { token := "" } (tokenOK "t1" 3600)
    [round (.response 500 none), round (tokenOK "t2" 100), round (tokenOK "t3" 100)]
    (by decide)
    (by intro n h; cases h; decide)
    (by
      intro r hr
      simp only [List.mem_cons, List.mem_singleton, List.not_mem_nil, or_false] at hr
      rcases hr with rfl | rfl | rfl
      · trivial
      · intro n h; cases h; decide
      · intro n h; cases h; decide)
    (by decide)).1

/-! ## C8: key encoding and scan order -/

theorem itob_eq_bigEndian (v : Nat) : itob v = bigEndian 8 v := by
  simp [itob, bigEndian]

theorem bytesLt_bigEndian (n : Nat) :
    ∀ a b : Nat, bytesLt (bigEndian n a) (bigEndian n b) = decide (a % 256 ^ n < b % 256 ^ n) := by
  induction n with
  | zero => intro a b; simp [bigEndian, bytesLt, Nat.mod_one]
  | succ n ih =>
    intro a b
    have ha := Nat.mod_pow_succ (x := a) (b := 256) (k := n)
    have hb := Nat.mod_pow_succ (x := b) (b := 256) (k := n)
    have hpos : 0 < 256 ^ n := Nat.pow_pos (by norm_num)
    have hal : a % 256 ^ n < 256 ^ n := Nat.mod_lt _ hpos
    have hbl : b % 256 ^ n < 256 ^ n := Nat.mod_lt _ hpos
    simp only [bigEndian, bytesLt, ih, ha, hb]
    generalize a / 256 ^ n % 256 = x
    generalize b / 256 ^ n % 256 = y
    generalize a % 256 ^ n = u at hal
    generalize b % 256 ^ n = w at hbl
    generalize 256 ^ n = m at hal hbl hpos
    by_cases hxy : x < y
    · simp only [hxy, if_true]
      have : m * (x + 1) ≤ m * y := Nat.mul_le_mul_left m hxy
      rw [Nat.mul_succ] at this
      simp only [true_eq_decide_iff]
      omega
    · by_cases hxe : x = y
      · subst hxe
        simp
      · have hyx : y < x := by omega
        have : m * (y + 1) ≤ m * x := Nat.mul_le_mul_left m hyx
        rw [Nat.mul_succ] at this
        simp only [hxy, hxe, if_false]
        simp only [false_eq_decide_iff]
        omega

theorem bytesLt_itob (a b : Nat) (ha : a < 2 ^ 64) (hb : b < 2 ^ 64) :
    bytesLt (itob a) (itob b) = decide (a < b) := by
  have h : (256 : Nat) ^ 8 = 2 ^ 64 := by norm_num
  rw [itob_eq_bigEndian, itob_eq_bigEndian, bytesLt_bigEndian, h,
    Nat.mod_eq_of_lt ha, Nat.mod_eq_of_lt hb]

theorem itob_injective (a b : Nat) (ha : a < 2 ^ 64) (hb : b < 2 ^ 64)
    (h : itob a = itob b) : a = b := by
  have h1 := bytesLt_itob a b ha hb
  have h2 := bytesLt_itob b a hb ha
  rw [h] at h1
  rw [h] at h2
  have h3 : bytesLt (itob b) (itob b) = false := by
    rw [bytesLt_itob b b hb hb]; simp
  rw [h3] at h1 h2
  simp only [false_eq_decide_iff] at h1 h2
  omega

theorem itob_size (v : Nat) : BoltKey.size (itob v) = 8 := rfl

theorem Put_itob {ν : Type} (b : Bucket Bytes ν) (v : Nat) (value : ν) :
    b.Put (itob v) value = .ok { b with entries := insertEntry (itob v) value b.entries } := by
  simp [Bucket.Put, itob_size, MaxKeySize]

theorem feedItems_records (l : List (Nat × Post)) :
    feedItems (l.map record) = .ok (l.map (fun r => renderItem r.2)) := by
  induction l with
  | nil => rfl
  | cons r rest ih => simp [feedItems, record, jsonUnmarshal, renderItem] at ih ⊢; simp [ih]

theorem insertEntry_record (r : Nat × Post) (hr : r.1 < 2 ^ 64) :
    ∀ l : List (Nat × Post), (l.map Prod.fst).Pairwise (· < ·) →
      (∀ x ∈ l, x.1 < 2 ^ 64) → r.1 ∉ l.map Prod.fst →
      ∃ l1 : List (Nat × Post), l1.Perm (r :: l) ∧ (l1.map Prod.fst).Pairwise (· < ·) ∧
        insertEntry (itob r.1) (Raw.json r.2) (l.map record) = l1.map record := by
  intro l
  induction l with
  | nil =>
    intro _ _ _
    exact ⟨[r], List.Perm.refl _, by simp, rfl⟩
  | cons x xs ih =>
    intro hs hb hn
    have hx : x.1 < 2 ^ 64 := hb x (List.mem_cons_self _ _)
    have hne : r.1 ≠ x.1 := by
      intro h
      apply hn
      simp [h]
    have hkey : itob r.1 ≠ itob x.1 := fun h => hne (itob_injective _ _ hr hx h)
    simp only [List.map_cons, List.pairwise_cons] at hs
    by_cases hlt : r.1 < x.1
    · refine ⟨r :: x :: xs, List.Perm.refl _, ?_, ?_⟩
      · simp only [List.map_cons, List.pairwise_cons]
        refine ⟨?_, hs.1, hs.2⟩
        intro y hy
        rcases List.mem_cons.1 hy with h | h
        · rw [h]; exact hlt
        · exact lt_trans hlt (hs.1 y h)
      · have : BoltKey.lt (itob r.1) (itob x.1) = true := by
          show bytesLt (itob r.1) (itob x.1) = true
          rw [bytesLt_itob _ _ hr hx]; simpa using hlt
        simp only [List.map_cons, insertEntry, record]
        rw [if_neg hkey, this]
        simp
    · have hgt : x.1 < r.1 := by omega
      have hn1 : r.1 ∉ xs.map Prod.fst := by
        intro h
        apply hn
        simp only [List.map_cons, List.mem_cons]
        exact Or.inr h
      obtain ⟨l1, hp, hs1, he⟩ := ih hs.2 (fun y hy => hb y (List.mem_cons_of_mem _ hy)) hn1
      refine ⟨x :: l1, ?_, ?_, ?_⟩
      · exact (List.Perm.cons x hp).trans (List.Perm.swap r x xs)
      · simp only [List.map_cons, List.pairwise_cons]
        refine ⟨?_, hs1⟩
        intro y hy
        obtain ⟨z, hz, hzy⟩ := List.mem_map.1 hy
        rcases List.mem_cons.1 (hp.mem_iff.1 hz) with h | h
        · rw [← hzy, h]; exact hgt
        · exact hs.1 y (by rw [← hzy]; exact List.mem_map_of_mem _ h)
      · have : BoltKey.lt (itob r.1) (itob x.1) = false := by
          show bytesLt (itob r.1) (itob x.1) = false
          rw [bytesLt_itob _ _ hr hx]; simpa using hlt
        have he1 : insertEntry (itob r.1) (Raw.json r.2) (List.map record xs)
            = List.map record l1 := he
        show insertEntry (itob r.1) (Raw.json r.2) ((itob x.1, Raw.json x.2) :: List.map record xs)
            = (itob x.1, Raw.json x.2) :: List.map record l1
        rw [insertEntry, if_neg hkey, this]
        simp only [Bool.false_eq_true, if_false]
        rw [he1]

theorem putRecords_sorted (recs : List (Nat × Post)) :
    ∀ (l : List (Nat × Post)) (seq : Nat), (l.map Prod.fst).Pairwise (· < ·) →
      (∀ x ∈ l, x.1 < 2 ^ 64) → (∀ x ∈ recs, x.1 < 2 ^ 64) →
      ((recs ++ l).map Prod.fst).Nodup →
      ∃ l1 : List (Nat × Post), l1.Perm (recs ++ l) ∧ (l1.map Prod.fst).Pairwise (· < ·) ∧
        putRecords recs { entries := l.map record, sequence := seq }
          = .ok { entries := l1.map record, sequence := seq } := by
  induction recs with
  | nil =>
    intro l seq hs _ _ _
    exact ⟨l, List.Perm.refl _, hs, rfl⟩
  | cons r rest ih =>
    intro l seq hs hb hrb hnd
    have hr : r.1 < 2 ^ 64 := hrb r (List.mem_cons_self _ _)
    simp only [List.cons_append, List.map_cons, List.nodup_cons] at hnd
    have hn : r.1 ∉ l.map Prod.fst := by
      intro h
      apply hnd.1
      simp only [List.map_append, List.mem_append]
      exact Or.inr h
    obtain ⟨l1, hp1, hs1, he1⟩ := insertEntry_record r hr l hs hb hn
    have hb1 : ∀ x ∈ l1, x.1 < 2 ^ 64 := by
      intro x hx
      rcases List.mem_cons.1 (hp1.mem_iff.1 hx) with h | h
      · rw [h]; exact hr
      · exact hb x h
    have hnd1 : ((rest ++ l1).map Prod.fst).Nodup := by
      have hperm : (rest ++ l1).Perm (r :: (rest ++ l)) :=
        (List.Perm.append_left rest hp1).trans List.perm_middle
      have := (hperm.map Prod.fst).nodup_iff
      rw [this]
      simp only [List.map_cons, List.nodup_cons]
      exact hnd
    obtain ⟨l2, hp2, hs2, he2⟩ :=
      ih l1 seq hs1 hb1 (fun x hx => hrb x (List.mem_cons_of_mem _ hx)) hnd1
    refine ⟨l2, ?_, hs2, ?_⟩
    · exact hp2.trans ((List.Perm.append_left rest hp1).trans List.perm_middle)
    · simp only [putRecords, Put_itob, he1]
      exact he2

/-- C8: `itob` preserves order and is injective on 64-bit values (for bytewise
lexicographic comparison `bytesLt`, the cursor order), and therefore the feed
built from a content bucket that received records under pairwise different
sequence numbers, in any order, lists one item per record in ascending order of
the sequence numbers. -/
theorem C8_itob_order_and_feed_order :
    (∀ a b : Nat, a < 2 ^ 64 → b < 2 ^ 64 → a < b → bytesLt (itob a) (itob b) = true) ∧
    (∀ a b : Nat, a < 2 ^ 64 → b < 2 ^ 64 → itob a = itob b → a = b) ∧
    (∀ (recs : List (Nat × Post)) (c : RedditRSS),
      (∀ r ∈ recs, r.1 < 2 ^ 64) → (recs.map Prod.fst).Nodup →
      ∃ (b : Bucket Bytes Raw) (sorted : List (Nat × Post)),
        putRecords recs Bucket.empty = .ok b ∧
        sorted.Perm recs ∧ (sorted.map Prod.fst).Pairwise (· < ·) ∧
        b.entries = sorted.map record ∧
        (RedditRSS.buildPostsFeed { c with db := { c.db with posts := some b } }).2 = none ∧
        ((RedditRSS.buildPostsFeed { c with db := { c.db with posts := some b } }).1.GetFeed.map
          (fun f => f.Items)) = some (sorted.map (fun r => renderItem r.2))) := by
  refine ⟨?_, itob_injective, ?_⟩
  · intro a b ha hb hab
    rw [bytesLt_itob a b ha hb]
    simpa using hab
  · intro recs c hb hnd
    obtain ⟨l1, hp, hs, he⟩ :=
      putRecords_sorted recs [] 0 (by simp) (by simp) hb (by simpa using hnd)
    refine ⟨_, l1, he, by simpa using hp, hs, rfl, ?_, ?_⟩
    · simp [RedditRSS.buildPostsFeed, feedItems_records]
    · simp [RedditRSS.buildPostsFeed, feedItems_records, RedditRSS.GetFeed]

/-- C8 at the sequence numbers 255 and 256, and at a bucket that received the record
256 before the record 255. -/
theorem C8_itob_order_and_feed_order_witness :
    bytesLt (itob 255) (itob 256) = true ∧
    ∃ (b : Bucket Bytes Raw) (sorted : List (Nat × Post)),
      putRecords [(256, linkPost "b" "B"), (255, linkPost "a" "A")] Bucket.empty = .ok b ∧
      sorted.Perm [(256, linkPost "b" "B"), (255, linkPost "a" "A")] ∧
      (sorted.map Prod.fst).Pairwise (· < ·) ∧
      b.entries = sorted.map record ∧
      (RedditRSS.buildPostsFeed
        { client := exClient, db := { index := none, posts := some b },
          user := "u", feed := none }).2 = none ∧
      ((RedditRSS.buildPostsFeed
        { client := exClient, db := { index := none, posts := some b },
          user := "u", feed := none }).1.GetFeed.map (fun f => f.Items))
        = some (sorted.map (fun r => renderItem r.2)) :=
  ⟨C8_itob_order_and_feed_order.1 255 256 (by norm_num) (by norm_num) (by norm_num),
   C8_itob_order_and_feed_order.2.2 [(256, linkPost "b" "B"), (255, linkPost "a" "A")]
     { client := exClient, db := { index := none, posts := none }, user := "u", feed := none }
     (by
        intro r hr
        simp only [List.mem_cons, List.mem_singleton, List.not_mem_nil, or_false] at hr
        rcases hr with rfl | rfl <;> norm_num)
     (by decide)⟩

/-! ## C5: a failed cycle changes nothing -/

/-- A cycle that fails before its transaction commits returns the error of its stage
and leaves the cache as it was. -/
theorem update_fails_before_commit (w : World) (fuel : Nat) (c : RedditRSS)
    (hfail : (∃ e, c.client.GetUserSaved w.saved c.user = .error e) ∨
      (∃ savedPosts, c.client.GetUserSaved w.saved c.user = .ok savedPosts ∧
        ((∃ e, updateTx w.saved fuel savedPosts c.db = .error e) ∨ w.commit = false))) :
    (∃ stage e, (c.update w fuel).err = some (stage, e) ∧ stage ≠ Stage.build) ∧
    (c.update w fuel).cache = c ∧
    (c.update w fuel).cache.db = c.db ∧
    (c.update w fuel).cache.GetFeed = c.GetFeed ∧
    (c.update w fuel).storedIds = [] := by
  have key : (∃ stage e, (c.update w fuel).err = some (stage, e) ∧ stage ≠ Stage.build) ∧
      (c.update w fuel).cache = c ∧ (c.update w fuel).storedIds = [] := by
    rcases hfail with ⟨e, he⟩ | ⟨sp, hsp, hrest⟩
    · simp only [RedditRSS.update, he, Cycle.storedIds]
      refine ⟨⟨_, _, rfl, by decide⟩, ?_, ?_⟩ <;> trivial
    · rcases hrest with ⟨e, he⟩ | hc
      · simp only [RedditRSS.update, hsp, DB.Update, he, Cycle.storedIds]
        refine ⟨⟨_, _, rfl, by decide⟩, ?_, ?_⟩ <;> trivial
      · cases htx : updateTx w.saved fuel sp c.db with
        | error e =>
          simp only [RedditRSS.update, hsp, DB.Update, htx, Cycle.storedIds]
          refine ⟨⟨_, _, rfl, by decide⟩, ?_, ?_⟩ <;> trivial
        | ok r =>
          simp only [RedditRSS.update, hsp, DB.Update, htx, hc, Cycle.storedIds]
          refine ⟨⟨_, _, rfl, by decide⟩, ?_, ?_⟩ <;> trivial
  refine ⟨key.1, key.2.1, ?_, ?_, key.2.2⟩
  · rw [key.2.1]
  · rw [key.2.1]

/-- C5: when a cycle fails before its transaction commits (the first fetch fails;
or the function run in the transaction fails, which is what a failing page
fetch, a panic of the iterator or a failing store write amounts to; or the commit
fails), `update` returns the error of that stage and the cache is exactly what
it was: database (content log, index, sequence counter) and published feed. -/
theorem C5_failed_cycle_changes_nothing (w : World) (fuel : Nat) (c : RedditRSS)
    (hfail : (∃ e, c.client.GetUserSaved w.saved c.user = .error e) ∨
      (∃ savedPosts, c.client.GetUserSaved w.saved c.user = .ok savedPosts ∧
        ((∃ e, updateTx w.saved fuel savedPosts c.db = .error e) ∨ w.commit = false))) :
    (∃ stage e, (c.update w fuel).err = some (stage, e) ∧ stage ≠ Stage.build) ∧
    (c.update w fuel).cache = c ∧
    (c.update w fuel).cache.db = c.db ∧
    (c.update w fuel).cache.GetFeed = c.GetFeed ∧
    (c.update w fuel).storedIds = [] :=
  update_fails_before_commit w fuel c hfail

/-- C5 at a cycle over a store holding post `z` whose second page fetch fails after
post `a` was pulled, and at a cycle whose second index write fails (blank key)
after the first post of the batch was written. -/
theorem C5_failed_cycle_changes_nothing_witness :
    ((freshCache.update { saved := singlePage [linkPost "z" "Z"], commit := true } 5).cache.update
        { saved := brokenSecondPage, commit := true } 5).cache
      = (freshCache.update { saved := singlePage [linkPost "z" "Z"], commit := true } 5).cache ∧
    (freshCache.update
        { saved := singlePage [linkPost "a" "A", linkPost "" "B"], commit := true } 5).cache
      = freshCache :=
  ⟨(C5_failed_cycle_changes_nothing { saved := brokenSecondPage, commit := true } 5
      (freshCache.update { saved := singlePage [linkPost "z" "Z"], commit := true } 5).cache
      (Or.inr ⟨_, rfl, Or.inl ⟨_, rfl⟩⟩)).2.1,
   (C5_failed_cycle_changes_nothing
      { saved := singlePage [linkPost "a" "A", linkPost "" "B"], commit := true } 5 freshCache
      (Or.inr ⟨_, rfl, Or.inl ⟨_, rfl⟩⟩)).2.1⟩

/-! ## C4: sequence numbers only grow -/

theorem Put_ok_inv {κ ν : Type} [DecidableEq κ] [BoltKey κ] (b b1 : Bucket κ ν) (key : κ)
    (value : ν) (h : b.Put key value = .ok b1) :
    b1 = { b with entries := insertEntry key value b.entries } ∧ BoltKey.size key ≠ 0 := by
  unfold Bucket.Put at h
  split at h
  · simp at h
  · split at h
    · simp at h
    · rename_i h0 _
      simp only [Except.ok.injEq] at h
      exact ⟨h.symm, h0⟩

/-- One turn of the loop of `update` that stores the batch, read backwards from a
successful result. -/
theorem storePosts_cons_inv (post : Post) (rest : List Post) (index : Bucket String Bytes)
    (posts : Bucket Bytes Raw) (res : Bucket String Bytes × Bucket Bytes Raw × List Nat)
    (h : storePosts (post :: rest) index posts = .ok res) :
    ∃ (redditID : String) (ids : List Nat),
      getID post = some redditID ∧ BoltKey.size redditID ≠ 0 ∧
      storePosts rest
        { index with entries :=
            insertEntry redditID (itob ((posts.sequence + 1) % 2 ^ 64)) index.entries }
        { entries :=
            insertEntry (itob ((posts.sequence + 1) % 2 ^ 64)) (Raw.json post) posts.entries,
          sequence := (posts.sequence + 1) % 2 ^ 64 }
        = .ok (res.1, res.2.1, ids) ∧
      res.2.2 = (posts.sequence + 1) % 2 ^ 64 :: ids := by
  unfold storePosts at h
  simp only [Bucket.NextSequence] at h
  generalize (posts.sequence + 1) % 2 ^ 64 = n at h ⊢
  cases hid : getID post with
  | none => simp [hid] at h
  | some redditID =>
    simp only [hid, jsonMarshal, Put_itob] at h
    cases hput : index.Put redditID (itob n) with
    | error e => simp [hput] at h
    | ok index1 =>
      obtain ⟨hi1, hsz⟩ := Put_ok_inv _ _ _ _ hput
      simp only [hput] at h
      subst hi1
      cases hrest : storePosts rest
          { index with entries := insertEntry redditID (itob n) index.entries }
          { entries := insertEntry (itob n) (Raw.json post) posts.entries, sequence := n } with
      | error e => simp [hrest] at h
      | ok r =>
        obtain ⟨i2, p2, ids⟩ := r
        simp only [hrest, Except.ok.injEq] at h
        subst h
        exact ⟨redditID, ids, rfl, hsz, hrest, rfl⟩

theorem storePosts_ids (batch : List Post) :
    ∀ (index : Bucket String Bytes) (posts : Bucket Bytes Raw)
      (res : Bucket String Bytes × Bucket Bytes Raw × List Nat),
      storePosts batch index posts = .ok res →
      res.2.2.length = batch.length ∧
      (posts.sequence + batch.length < 2 ^ 64 →
        res.2.2 = List.range' (posts.sequence + 1) batch.length ∧
        res.2.1.sequence = posts.sequence + batch.length) := by
  induction batch with
  | nil =>
    intro index posts res h
    simp only [storePosts, Except.ok.injEq] at h
    subst h
    simp
  | cons post rest ih =>
    intro index posts res h
    obtain ⟨redditID, ids, _, _, hrest, hres⟩ := storePosts_cons_inv post rest index posts res h
    have h1 := ih _ _ _ hrest
    simp only at h1
    refine ⟨by rw [hres]; simp [h1.1], ?_⟩
    intro hb
    simp only [List.length_cons] at hb
    have hmod : (posts.sequence + 1) % 2 ^ 64 = posts.sequence + 1 :=
      Nat.mod_eq_of_lt (by omega)
    rw [hmod] at h1 hres
    have h2 := h1.2 (by omega)
    refine ⟨?_, ?_⟩
    · rw [hres, h2.1]
      simp [List.range'_succ]
    · rw [h2.2]
      simp only [List.length_cons]
      omega

theorem updateTx_inv (saved : SavedEndpoint) (fuel : Nat) (sp : UserSavedResponse) (tx : DB)
    (res : DB × Batch) (h : updateTx saved fuel sp tx = .ok res) :
    ∃ (index : Bucket String Bytes) (posts : Bucket Bytes Raw),
      getNewPosts saved fuel tx.indexBucket sp = .ok (res.2.newPosts, res.2.savedPosts) ∧
      storePosts res.2.newPosts tx.indexBucket tx.postsBucket = .ok (index, posts, res.2.ids) ∧
      res.1 = { index := some index, posts := some posts } := by
  have hi : CreateBucketIfNotExists tx.index = .ok tx.indexBucket := by
    unfold CreateBucketIfNotExists DB.indexBucket; cases tx.index <;> rfl
  have hp : CreateBucketIfNotExists tx.posts = .ok tx.postsBucket := by
    unfold CreateBucketIfNotExists DB.postsBucket; cases tx.posts <;> rfl
  unfold updateTx at h
  simp only [hi, hp] at h
  cases hg : getNewPosts saved fuel tx.indexBucket sp with
  | error e => simp [hg] at h
  | ok r =>
    obtain ⟨newPosts, sp1⟩ := r
    simp only [hg] at h
    cases hs : storePosts newPosts tx.indexBucket tx.postsBucket with
    | error e => simp [hs] at h
    | ok r2 =>
      obtain ⟨index, posts, ids⟩ := r2
      simp only [hs, Except.ok.injEq] at h
      subst h
      exact ⟨index, posts, rfl, hs, rfl⟩

theorem buildPostsFeed_fields (c : RedditRSS) :
    c.buildPostsFeed.1.db = c.db ∧ c.buildPostsFeed.1.client = c.client ∧
    c.buildPostsFeed.1.user = c.user := by
  unfold RedditRSS.buildPostsFeed
  cases c.db.posts with
  | none => exact ⟨rfl, rfl, rfl⟩
  | some b =>
    simp only
    cases feedItems b.entries <;> exact ⟨rfl, rfl, rfl⟩

/-- A cycle whose transaction commits. -/
theorem update_commit (w : World) (fuel : Nat) (c : RedditRSS) (sp : UserSavedResponse)
    (res : DB × Batch) (hg : c.client.GetUserSaved w.saved c.user = .ok sp)
    (htx : updateTx w.saved fuel sp c.db = .ok res) (hc : w.commit = true) :
    (c.update w fuel).cache = (RedditRSS.buildPostsFeed { c with db := res.1 }).1 ∧
    (c.update w fuel).batch = some res.2 ∧
    (c.update w fuel).err = (RedditRSS.buildPostsFeed { c with db := res.1 }).2.map
      (fun e => (Stage.build, e.wrap "build redit posts rss: ")) := by
  unfold RedditRSS.update
  simp only [hg, DB.Update, htx, hc, if_true]
  rcases hbuild : RedditRSS.buildPostsFeed { c with db := res.1 } with ⟨c1, err⟩
  cases err <;> exact ⟨rfl, rfl, rfl⟩

/-- A cycle whose transaction committed, read backwards. -/
theorem update_batch_inv (w : World) (fuel : Nat) (c : RedditRSS) (b : Batch)
    (h : (c.update w fuel).batch = some b) :
    ∃ (sp : UserSavedResponse) (index : Bucket String Bytes) (posts : Bucket Bytes Raw),
      c.client.GetUserSaved w.saved c.user = .ok sp ∧
      getNewPosts w.saved fuel c.db.indexBucket sp = .ok (b.newPosts, b.savedPosts) ∧
      storePosts b.newPosts c.db.indexBucket c.db.postsBucket = .ok (index, posts, b.ids) ∧
      (c.update w fuel).cache.db = { index := some index, posts := some posts } ∧
      (c.update w fuel).cache.client = c.client ∧
      (c.update w fuel).cache.user = c.user := by
  cases hg : c.client.GetUserSaved w.saved c.user with
  | error e => simp [RedditRSS.update, hg] at h
  | ok sp =>
    cases htx : updateTx w.saved fuel sp c.db with
    | error e => simp [RedditRSS.update, hg, DB.Update, htx] at h
    | ok res =>
      by_cases hc : w.commit = true
      · obtain ⟨hcache, hbatch, _⟩ := update_commit w fuel c sp res hg htx hc
        obtain ⟨index, posts, h1, h2, h3⟩ := updateTx_inv _ _ _ _ _ htx
        rw [hbatch] at h
        simp only [Option.some.injEq] at h
        rw [h] at h1 h2
        have hf := buildPostsFeed_fields { c with db := res.1 }
        refine ⟨sp, index, posts, rfl, h1, h2, ?_, ?_, ?_⟩
        · rw [hcache, hf.1, ← h3]
        · rw [hcache, hf.2.1]
        · rw [hcache, hf.2.2]
      · simp [RedditRSS.update, hg, DB.Update, htx, hc] at h

theorem update_nobatch (w : World) (fuel : Nat) (c : RedditRSS)
    (h : (c.update w fuel).batch = none) : (c.update w fuel).cache = c := by
  unfold RedditRSS.update at h ⊢
  cases hg : c.client.GetUserSaved w.saved c.user with
  | error e => simp
  | ok sp =>
    simp only [hg, DB.Update] at h ⊢
    cases htx : updateTx w.saved fuel sp c.db with
    | error e => simp
    | ok res =>
      simp only [htx] at h ⊢
      by_cases hc : w.commit = true
      · simp only [hc, if_true] at h
        split at h <;> simp at h
      · simp [hc]

theorem DB.sequence_eq (db : DB) : db.sequence = db.postsBucket.sequence := by
  unfold DB.sequence DB.postsBucket
  cases db.posts <;> rfl

/-- The sequence numbers of one cycle continue the counter. -/
theorem update_storedIds (w : World) (fuel : Nat) (c : RedditRSS)
    (hb : c.db.sequence + (c.update w fuel).storedIds.length < 2 ^ 64) :
    (c.update w fuel).storedIds
      = List.range' (c.db.sequence + 1) (c.update w fuel).storedIds.length ∧
    (c.update w fuel).cache.db.sequence
      = c.db.sequence + (c.update w fuel).storedIds.length := by
  cases hbat : (c.update w fuel).batch with
  | none =>
    have := update_nobatch w fuel c hbat
    simp [Cycle.storedIds, hbat, this]
  | some b =>
    obtain ⟨sp, index, posts, _, _, hs, hdb, _⟩ := update_batch_inv w fuel c b hbat
    have h1 := storePosts_ids _ _ _ _ hs
    simp only [Cycle.storedIds, hbat] at hb ⊢
    simp only at h1
    rw [DB.sequence_eq, h1.1] at hb
    have h2 := h1.2 hb
    rw [hdb, DB.sequence_eq]
    simp only [DB.sequence, h1.1]
    exact ⟨h2.1, h2.2⟩

theorem runCycles_ids (cycles : List (World × Nat)) :
    ∀ c : RedditRSS, c.db.sequence + (runCycles cycles c).2.length < 2 ^ 64 →
      (runCycles cycles c).2 = List.range' (c.db.sequence + 1) (runCycles cycles c).2.length := by
  induction cycles with
  | nil => intro c _; simp [runCycles]
  | cons wf rest ih =>
    intro c hb
    obtain ⟨w, fuel⟩ := wf
    simp only [runCycles, List.length_append] at hb ⊢
    have h1 := update_storedIds w fuel c (by omega)
    have h2 := ih (c.update w fuel).cache (by rw [h1.2]; omega)
    rw [h1.2] at h2
    rw [Nat.add_comm (c.update w fuel).storedIds.length, ← List.range'_append_1, ← h1.1]
    have : c.db.sequence + 1 + (c.update w fuel).storedIds.length
        = c.db.sequence + (c.update w fuel).storedIds.length + 1 := by omega
    rw [this, ← h2]

/-- C4: over any sequence of cycles, failed ones included, as long as the 64-bit
counter does not wrap around, the sequence numbers under which records are
durably stored, taken in the order of storing, are strictly increasing (so each
is greater than every earlier one and none is used twice), and all of them are
greater than the counter the sequence started from. -/
theorem C4_sequence_ids_increase (cycles : List (World × Nat)) (c : RedditRSS)
    (hbound : c.db.sequence + (runCycles cycles c).2.length < 2 ^ 64) :
    (runCycles cycles c).2.Pairwise (· < ·) ∧
    (runCycles cycles c).2.Nodup ∧
    (∀ id ∈ (runCycles cycles c).2, c.db.sequence < id) := by
  have h := runCycles_ids cycles c hbound
  have hp : (runCycles cycles c).2.Pairwise (· < ·) := by
    rw [h]; exact List.pairwise_lt_range' _ _
  refine ⟨hp, hp.imp (fun h => Nat.ne_of_lt h), ?_⟩
  intro id hid
  rw [h] at hid
  have := (List.mem_range'_1.1 hid).1
  omega

/-- C4 at three cycles from an empty store, the second of which fails at commit:
the records are stored under 1, 2, 3 and 4. -/
theorem C4_sequence_ids_increase_witness :
    (runCycles threeCycles freshCache).2 = [1, 2, 3, 4] ∧
    (runCycles threeCycles freshCache).2.Pairwise (· < ·) :=
  ⟨by decide, (C4_sequence_ids_increase threeCycles freshCache (by decide)).1⟩

/-! ## The iterator over a chain of pages -/

theorem drop_eq_cons_inv {α : Type} :
    ∀ (l : List α) (k : Nat) (x : α) (xs : List α), l.drop k = x :: xs →
      l.get? k = some x ∧ l.drop (k + 1) = xs ∧ l.take (k + 1) = l.take k ++ [x] ∧
      k < l.length := by
  intro l
  induction l with
  | nil => intro k x xs h; simp at h
  | cons a as ih =>
    intro k x xs h
    cases k with
    | zero =>
      simp only [List.drop_zero, List.cons.injEq] at h
      obtain ⟨rfl, rfl⟩ := h
      simp
    | succ k =>
      simp only [List.drop_succ_cons] at h
      obtain ⟨h1, h2, h3, h4⟩ := ih k x xs h
      refine ⟨by simpa using h1, by simpa using h2, ?_, by simpa using h4⟩
      simp only [List.take_succ_cons, List.cons_append, List.cons.injEq, true_and]
      exact h3

theorem chainFrom_inv (saved : SavedEndpoint) (cu : String) (p : userSavedResponse)
    (rest : List userSavedResponse) (h : chainFrom saved cu p rest = true) :
    p.Data.Dist = (p.Data.Children.length : Int) ∧
    match rest with
    | [] => p.Data.After = ""
    | q :: r => p.Data.After ≠ "" ∧
        saved { User := cu, After := p.Data.After } = .response 200 (some q) ∧
        chainFrom saved cu q r = true := by
  cases rest with
  | nil => simpa [chainFrom] using h
  | cons q r =>
    simp only [chainFrom, Bool.and_eq_true, beq_iff_eq, bne_iff_ne, ne_eq] at h
    exact ⟨h.1.1.1, h.1.1.2, h.1.2, h.2⟩

theorem chainPosts_cons (q : userSavedResponse) (r : List userSavedResponse) :
    chainPosts (q :: r) = q.Data.Children ++ chainPosts r := by
  simp [chainPosts]

theorem chainPosts_nil : chainPosts [] = [] := rfl

/-- `NextPost` at a position of a chain: the end when nothing remains; otherwise
the next remaining post, either from the page held or, when that page is used up,
from the next page, which is fetched with one request. -/
theorem NextPost_atPos (saved : SavedEndpoint) (u : UserSavedResponse)
    (pre : List userSavedResponse) (cur : userSavedResponse) (rest : List userSavedResponse)
    (k : Nat) (h : AtPos saved u pre cur rest k) :
    (remaining cur rest k = [] → u.NextPost saved = .ok (none, u) ∧ rest = []) ∧
    (∀ x xs, remaining cur rest k = x :: xs →
      ∃ (u1 : UserSavedResponse) (pre1 : List userSavedResponse) (cur1 : userSavedResponse)
        (rest1 : List userSavedResponse) (k1 : Nat),
        u.NextPost saved = .ok (some x, u1) ∧ AtPos saved u1 pre1 cur1 rest1 k1 ∧
        remaining cur1 rest1 k1 = xs ∧ pre1 ++ cur1 :: rest1 = pre ++ cur :: rest ∧
        u1.client = u.client ∧
        ((pre1 = pre ∧ cur1 = cur ∧ cur1.Data.Children.take k1 = cur.Data.Children.take k ++ [x]) ∨
         (pre1 = pre ++ [cur] ∧ k = cur.Data.Children.length ∧
            cur1.Data.Children.take k1 = [x]))) := by
  obtain ⟨hdata, hproc, hle, hchain, hne, hreqs⟩ := h
  obtain ⟨hdist, hnext⟩ := chainFrom_inv _ _ _ _ hchain
  by_cases hk : k < cur.Data.Children.length
  · -- the page held has a child left
    have hcond : ¬ ((u.processed : Int) ≥ u.data.Data.Dist) := by
      rw [hdata, hproc, hdist]; omega
    obtain ⟨y, ys, hy⟩ : ∃ y ys, cur.Data.Children.drop k = y :: ys := by
      cases hd : cur.Data.Children.drop k with
      | nil =>
        have := List.drop_eq_nil_iff.1 hd
        omega
      | cons y ys => exact ⟨y, ys, rfl⟩
    obtain ⟨hget, hdrop, htake, _⟩ := drop_eq_cons_inv _ _ _ _ hy
    constructor
    · intro hrem
      simp [remaining, hy] at hrem
    · intro x xs hrem
      simp only [remaining, hy, List.cons_append, List.cons.injEq] at hrem
      obtain ⟨rfl, rfl⟩ := hrem
      refine ⟨{ u with processed := u.processed + 1 }, pre, cur, rest, k + 1, ?_, ?_, ?_, rfl, rfl,
        Or.inl ⟨rfl, rfl, htake⟩⟩
      · unfold UserSavedResponse.NextPost
        rw [if_neg hcond]
        unfold UserSavedResponse.take
        rw [hdata, hproc, hget]
      · exact ⟨hdata, by simp [hproc], hk, hchain, hne, hreqs⟩
      · simp [remaining, hdrop]
  · -- the page held is used up
    have hkl : k = cur.Data.Children.length := by omega
    have hcond : (u.processed : Int) ≥ u.data.Data.Dist := by
      rw [hdata, hproc, hdist]; omega
    have hdrop : cur.Data.Children.drop k = [] := List.drop_eq_nil_iff.2 (by omega)
    cases rest with
    | nil =>
      simp only at hnext
      constructor
      · intro _
        refine ⟨?_, rfl⟩
        unfold UserSavedResponse.NextPost
        rw [if_pos hcond, hdata, if_pos hnext]
      · intro x xs hrem
        simp [remaining, hdrop, chainPosts_nil] at hrem
    | cons q r =>
      simp only at hnext
      obtain ⟨hafter, hsaved, hchain1⟩ := hnext
      have hq : q.Data.Children ≠ [] := hne q (List.mem_cons_self _ _)
      obtain ⟨hqdist, _⟩ := chainFrom_inv _ _ _ _ hchain1
      constructor
      · intro hrem
        simp only [remaining, hdrop, chainPosts_cons, List.nil_append, List.append_eq_nil] at hrem
        exact absurd hrem.1 hq
      · intro x xs hrem
        simp only [remaining, hdrop, chainPosts_cons, List.nil_append] at hrem
        obtain ⟨y, ys, hy⟩ : ∃ y ys, q.Data.Children = y :: ys := by
          cases hc : q.Data.Children with
          | nil => exact absurd hc hq
          | cons y ys => exact ⟨y, ys, rfl⟩
        rw [hy] at hrem
        simp only [List.cons_append, List.cons.injEq] at hrem
        obtain ⟨rfl, rfl⟩ := hrem
        refine ⟨⟨u.client, q, 1,
            u.requests ++ [⟨u.client.cfg.Username, u.data.Data.After⟩]⟩,
          pre ++ [cur], q, r, 1, ?_, ?_, ?_, by simp, rfl, Or.inr ⟨rfl, hkl, by simp [hy]⟩⟩
        · unfold UserSavedResponse.NextPost
          rw [if_pos hcond, hdata, if_neg hafter]
          simp only [Client.getUserSaved, hsaved]
          simp [UserSavedResponse.take, hy]
        · exact ⟨rfl, rfl, by rw [hy]; simp, hchain1,
            fun q1 h1 => hne q1 (List.mem_cons_of_mem _ h1), by simp [hreqs]⟩
        · simp [remaining, hy]

/-- Draining an iterator at a position of a chain hands out what remains and ends
on the last page, with one request per page made in all. -/
theorem drain_atPos (saved : SavedEndpoint) :
    ∀ (items : List Post) (u : UserSavedResponse) (pre : List userSavedResponse)
      (cur : userSavedResponse) (rest : List userSavedResponse) (k fuel : Nat),
      AtPos saved u pre cur rest k → remaining cur rest k = items → items.length < fuel →
      ∃ (u1 : UserSavedResponse) (pre1 : List userSavedResponse) (cur1 : userSavedResponse),
        drain saved fuel u = .ok (items, u1) ∧
        AtPos saved u1 pre1 cur1 [] cur1.Data.Children.length ∧
        pre1 ++ [cur1] = pre ++ cur :: rest ∧
        u1.NextPost saved = .ok (none, u1) := by
  intro items
  induction items with
  | nil =>
    intro u pre cur rest k fuel hpos hrem hfuel
    obtain ⟨hend, hrest⟩ := (NextPost_atPos saved u pre cur rest k hpos).1 hrem
    subst hrest
    cases fuel with
    | zero => omega
    | succ f =>
      have hk : k = cur.Data.Children.length := by
        have h1 := hpos.le
        simp only [remaining, chainPosts_nil, List.append_nil] at hrem
        have h2 := List.drop_eq_nil_iff.1 hrem
        omega
      refine ⟨u, pre, cur, ?_, ?_, rfl, hend⟩
      · simp [drain, hend]
      · rw [← hk]; exact hpos
  | cons x xs ih =>
    intro u pre cur rest k fuel hpos hrem hfuel
    obtain ⟨u1, pre1, cur1, rest1, k1, hnext, hpos1, hrem1, hpages, _, _⟩ :=
      (NextPost_atPos saved u pre cur rest k hpos).2 x xs hrem
    cases fuel with
    | zero => omega
    | succ f =>
      simp only [List.length_cons] at hfuel
      obtain ⟨u2, pre2, cur2, hdrain, hpos2, hpages2, hend2⟩ :=
        ih u1 pre1 cur1 rest1 k1 f hpos1 hrem1 (by omega)
      refine ⟨u2, pre2, cur2, ?_, hpos2, hpages2.trans hpages, hend2⟩
      simp [drain, hnext, hdrain]

theorem mem_of_take_eq_append {α : Type} (l t : List α) (k : Nat) (x : α)
    (h : l.take k = t ++ [x]) : x ∈ l := by
  have : x ∈ l.take k := by rw [h]; simp
  exact List.mem_of_mem_take this

/-- The loop of `getNewPosts` over an iterator at a position of a chain, when no
post handed out so far is known: it returns the posts with a string id among the
remaining ones before the first known post, and stops on the page of that post,
or on the last page when no post is known. -/
theorem getNewPostsLoop_atPos (saved : SavedEndpoint) (index : Bucket String Bytes) :
    ∀ (items : List Post) (u : UserSavedResponse) (pre : List userSavedResponse)
      (cur : userSavedResponse) (rest : List userSavedResponse) (k : Nat) (acc : List Post)
      (fuel : Nat),
      AtPos saved u pre cur rest k → remaining cur rest k = items → items.length < fuel →
      (∀ q ∈ pre, ∀ y ∈ q.Data.Children, known index y = false) →
      (∀ y ∈ cur.Data.Children.take k, known index y = false) →
      ∃ (u1 : UserSavedResponse) (pre1 : List userSavedResponse) (cur1 : userSavedResponse)
        (rest1 : List userSavedResponse) (k1 : Nat),
        getNewPostsLoop saved index fuel u acc
          = .ok (acc ++ (items.takeWhile (fun p => !known index p)).filter hasID, u1) ∧
        AtPos saved u1 pre1 cur1 rest1 k1 ∧
        pre1 ++ cur1 :: rest1 = pre ++ cur :: rest ∧
        remaining cur1 rest1 k1
          = items.drop ((items.takeWhile (fun p => !known index p)).length + 1) ∧
        (∀ q ∈ pre1, ∀ y ∈ q.Data.Children, known index y = false) ∧
        ((∃ y ∈ cur1.Data.Children, known index y = true) ∨
          (rest1 = [] ∧ ∀ y ∈ cur1.Data.Children, known index y = false)) := by
  intro items
  induction items with
  | nil =>
    intro u pre cur rest k acc fuel hpos hrem hfuel hpre hcur
    obtain ⟨hend, hrest⟩ := (NextPost_atPos saved u pre cur rest k hpos).1 hrem
    cases fuel with
    | zero => omega
    | succ f =>
      have hk : cur.Data.Children.take k = cur.Data.Children := by
        simp only [remaining, List.append_eq_nil] at hrem
        have h2 := List.drop_eq_nil_iff.1 hrem.1
        exact List.take_of_length_le h2
      rw [hk] at hcur
      refine ⟨u, pre, cur, rest, k, ?_, hpos, rfl, by simpa using hrem, hpre,
        Or.inr ⟨hrest, hcur⟩⟩
      simp [getNewPostsLoop, hend]
  | cons x xs ih =>
    intro u pre cur rest k acc fuel hpos hrem hfuel hpre hcur
    obtain ⟨u1, pre1, cur1, rest1, k1, hnext, hpos1, hrem1, hpages, _, hcase⟩ :=
      (NextPost_atPos saved u pre cur rest k hpos).2 x xs hrem
    have hpre1 : ∀ q ∈ pre1, ∀ y ∈ q.Data.Children, known index y = false := by
      rcases hcase with ⟨h1, _, _⟩ | ⟨h1, h2, _⟩
      · rw [h1]; exact hpre
      · rw [h1]
        intro q hq y hy
        rcases List.mem_append.1 hq with h | h
        · exact hpre q h y hy
        · simp only [List.mem_singleton] at h
          subst h
          rw [h2, List.take_length] at hcur
          exact hcur y hy
    have hxmem : x ∈ cur1.Data.Children := by
      rcases hcase with ⟨_, _, h3⟩ | ⟨_, _, h3⟩
      · exact mem_of_take_eq_append _ _ _ _ h3
      · exact mem_of_take_eq_append _ [] _ _ (by simpa using h3)
    have hcur1 : known index x = false → ∀ y ∈ cur1.Data.Children.take k1, known index y = false := by
      intro hx y hy
      rcases hcase with ⟨_, _, h3⟩ | ⟨_, _, h3⟩
      · rw [h3] at hy
        rcases List.mem_append.1 hy with h | h
        · exact hcur y h
        · simp only [List.mem_singleton] at h
          rw [h]; exact hx
      · rw [h3] at hy
        simp only [List.mem_singleton] at hy
        rw [hy]; exact hx
    cases fuel with
    | zero => omega
    | succ f =>
      simp only [List.length_cons] at hfuel
      cases hid : getID x with
      | none =>
        have hkn : known index x = false := by simp [known, hid]
        have hhas : hasID x = false := by simp [hasID, hid]
        obtain ⟨u2, pre2, cur2, rest2, k2, hloop, hpos2, hpages2, hrem2, hpre2, hfin⟩ :=
          ih u1 pre1 cur1 rest1 k1 acc f hpos1 hrem1 (by omega) hpre1 (hcur1 hkn)
        refine ⟨u2, pre2, cur2, rest2, k2, ?_, hpos2, hpages2.trans hpages, ?_, hpre2, hfin⟩
        · simp [getNewPostsLoop, hnext, hid, hloop, List.takeWhile, hkn, hhas]
        · simp [List.takeWhile, hkn, hrem2]
      | some id =>
        have hhas : hasID x = true := by simp [hasID, hid]
        by_cases hget : (index.Get id).isSome = true
        · have hkn : known index x = true := by simp [known, hid, hget]
          refine ⟨u1, pre1, cur1, rest1, k1, ?_, hpos1, hpages, ?_, hpre1,
            Or.inl ⟨x, hxmem, hkn⟩⟩
          · simp [getNewPostsLoop, hnext, hid, hget, List.takeWhile, hkn]
          · simp [List.takeWhile, hkn, hrem1]
        · have hkn : known index x = false := by simp [known, hid, hget]
          obtain ⟨u2, pre2, cur2, rest2, k2, hloop, hpos2, hpages2, hrem2, hpre2, hfin⟩ :=
            ih u1 pre1 cur1 rest1 k1 (acc ++ [x]) f hpos1 hrem1 (by omega) hpre1 (hcur1 hkn)
          refine ⟨u2, pre2, cur2, rest2, k2, ?_, hpos2, hpages2.trans hpages, ?_, hpre2, hfin⟩
          · simp [getNewPostsLoop, hnext, hid, hget, hloop, List.takeWhile, hkn, hhas]
          · simp [List.takeWhile, hkn, hrem2]

theorem takeWhile_append_stop {α : Type} (P : α → Bool) (a : α) (ha : P a = false) :
    ∀ (l : List α) (r : List α), (∀ x ∈ l, P x = true) → (l ++ a :: r).takeWhile P = l := by
  intro l
  induction l with
  | nil => intro r _; simp [List.takeWhile, ha]
  | cons x xs ih =>
    intro r h
    have hx := h x (List.mem_cons_self _ _)
    have hrec := ih r (fun y hy => h y (List.mem_cons_of_mem _ hy))
    simp [List.takeWhile_cons, hx, hrec]

theorem takeWhile_all {α : Type} (P : α → Bool) :
    ∀ (l : List α), (∀ x ∈ l, P x = true) → l.takeWhile P = l := by
  intro l
  induction l with
  | nil => intro _; rfl
  | cons x xs ih =>
    intro h
    have hx := h x (List.mem_cons_self _ _)
    have hrec := ih (fun y hy => h y (List.mem_cons_of_mem _ hy))
    simp [List.takeWhile_cons, hx, hrec]

/-- `GetUserSaved` followed by `getNewPosts` over a saved list served as a chain of
pages, for any index. -/
theorem getNewPosts_on_chain (saved : SavedEndpoint) (c : Client) (user : String)
    (index : Bucket String Bytes) (pages : List userSavedResponse)
    (hchain : servesChain saved user c.cfg.Username pages = true)
    (hne : ∀ q ∈ pages.tail, q.Data.Children ≠ []) :
    ∃ u0, c.GetUserSaved saved user = .ok u0 ∧
      ∀ fuel, (chainPosts pages).length < fuel →
        ∃ u1, getNewPosts saved fuel index u0
            = .ok (((chainPosts pages).takeWhile (fun p => !known index p)).filter hasID, u1) ∧
          u1.requests.length
            = min ((pages.takeWhile
                (fun q => !q.Data.Children.any (known index))).length + 1) pages.length ∧
          ∃ u2, drain saved fuel u1
            = .ok ((chainPosts pages).drop
                (((chainPosts pages).takeWhile (fun p => !known index p)).length + 1), u2) := by
  cases pages with
  | nil => simp [servesChain] at hchain
  | cons p rest =>
    simp only [servesChain, Bool.and_eq_true, beq_iff_eq] at hchain
    obtain ⟨hfirst, hchain1⟩ := hchain
    simp only [List.tail_cons] at hne
    refine ⟨⟨c, p, 0, [⟨user, ""⟩]⟩, ?_, ?_⟩
    · simp [Client.GetUserSaved, Client.getUserSaved, hfirst]
    · intro fuel hfuel
      have hpos : AtPos saved ⟨c, p, 0, [⟨user, ""⟩]⟩ [] p rest 0 :=
        ⟨rfl, rfl, Nat.zero_le _, hchain1, hne, rfl⟩
      have hrem : remaining p rest 0 = chainPosts (p :: rest) := by
        simp [remaining, chainPosts_cons]
      obtain ⟨u1, pre1, cur1, rest1, k1, hloop, hpos1, hpages, hrem1, hpre1, hfin⟩ :=
        getNewPostsLoop_atPos saved index (chainPosts (p :: rest)) _ [] p rest 0 [] fuel
          hpos hrem hfuel (by simp) (by simp)
      refine ⟨u1, by simpa [getNewPosts] using hloop, ?_, ?_⟩
      · rw [hpos1.reqs]
        simp only [List.nil_append] at hpages
        rw [← hpages]
        have hP : ∀ q ∈ pre1, (!q.Data.Children.any (known index)) = true := by
          intro q hq
          simp only [Bool.not_eq_true', List.any_eq_false]
          intro y hy
          simpa using hpre1 q hq y hy
        rcases hfin with ⟨y, hy, hky⟩ | ⟨hrest1, hall⟩
        · have hcur : (!cur1.Data.Children.any (known index)) = false := by
            simp only [Bool.not_eq_false', List.any_eq_true]
            exact ⟨y, hy, hky⟩
          rw [takeWhile_append_stop _ cur1 hcur pre1 rest1 hP]
          simp
        · subst hrest1
          have hall1 : ∀ q ∈ pre1 ++ [cur1], (!q.Data.Children.any (known index)) = true := by
            intro q hq
            rcases List.mem_append.1 hq with h | h
            · exact hP q h
            · simp only [List.mem_singleton] at h
              subst h
              simp only [Bool.not_eq_true', List.any_eq_false]
              intro y hy
              simpa using hall y hy
          rw [takeWhile_all _ _ hall1]
          simp
      · have hlen : (remaining cur1 rest1 k1).length < fuel := by
          rw [hrem1, List.length_drop]
          omega
        obtain ⟨u2, _, _, hdrain, _⟩ :=
          drain_atPos saved _ u1 pre1 cur1 rest1 k1 fuel hpos1 rfl hlen
        exact ⟨u2, by rw [hdrain, hrem1]⟩

/-! ## C1: the new-items batch -/

/-- C1: over a saved list served as a chain of pages (no page after the first
empty), for every index, `getNewPosts` returns, given enough fuel, in remote
order exactly the posts with a string id that come before the first post whose
id is in the index (all of them when there is none); the iterator has then made
one request per page up to and including the page of that post and no more, and
what it has not handed out is everything after that post. -/
theorem C1_getNewPosts_boundary (saved : SavedEndpoint) (c : Client) (user : String)
    (index : Bucket String Bytes) (pages : List userSavedResponse)
    (hchain : servesChain saved user c.cfg.Username pages = true)
    (hne : ∀ q ∈ pages.tail, q.Data.Children ≠ []) :
    ∃ u0, c.GetUserSaved saved user = .ok u0 ∧
      ∀ fuel, (chainPosts pages).length < fuel →
        ∃ u1, getNewPosts saved fuel index u0
            = .ok (((chainPosts pages).takeWhile (fun p => !known index p)).filter hasID, u1) ∧
          u1.requests.length
            = min ((pages.takeWhile
                (fun q => !q.Data.Children.any (known index))).length + 1) pages.length ∧
          ∃ u2, drain saved fuel u1
            = .ok ((chainPosts pages).drop
                (((chainPosts pages).takeWhile (fun p => !known index p)).length + 1), u2) :=
  getNewPosts_on_chain saved c user index pages hchain hne

/-- C1 at the remote list `[a, b, c, d]` served as pages `[a, b]`, `[c]`, `[d]`
and an index holding `c` and `d`: the batch is `[a, b]`, two of the three pages
are requested, and `d` is left in the iterator. -/
theorem C1_getNewPosts_boundary_witness :
    ∃ u0, exClient.GetUserSaved abcdEndpoint "u" = .ok u0 ∧
      ∀ fuel, 4 < fuel →
        ∃ u1, getNewPosts abcdEndpoint fuel indexCD u0
            = .ok ([linkPost "a" "A", linkPost "b" "B"], u1) ∧
          u1.requests.length = 2 ∧
          ∃ u2, drain abcdEndpoint fuel u1 = .ok ([linkPost "d" "D"], u2) := by
  have h := C1_getNewPosts_boundary abcdEndpoint exClient "u" indexCD abcdPages
    (by decide) (by decide)
  have e0 : (chainPosts abcdPages).length = 4 := by decide
  have e1 : ((chainPosts abcdPages).takeWhile (fun p => !known indexCD p)).filter hasID
      = [linkPost "a" "A", linkPost "b" "B"] := by decide
  have e2 : min ((abcdPages.takeWhile
      (fun q => !q.Data.Children.any (known indexCD))).length + 1) abcdPages.length = 2 := by
    decide
  have e3 : (chainPosts abcdPages).drop
      (((chainPosts abcdPages).takeWhile (fun p => !known indexCD p)).length + 1)
      = [linkPost "d" "D"] := by decide
  rw [e0, e1, e2, e3] at h
  exact h

/-! ## C2: a second cycle stores nothing -/

theorem findKey_insertEntry_same {κ ν : Type} [DecidableEq κ] [BoltKey κ] (key : κ) (value : ν) :
    ∀ l : List (κ × ν), findKey key (insertEntry key value l) = some value := by
  intro l
  induction l with
  | nil => simp [insertEntry, findKey]
  | cons e rest ih =>
    obtain ⟨k, v⟩ := e
    unfold insertEntry
    by_cases h1 : key = k
    · simp [h1, findKey]
    · by_cases h2 : BoltKey.lt key k = true
      · simp [h1, h2, findKey]
      · simp [h1, h2, findKey, ih]

theorem findKey_insertEntry_other {κ ν : Type} [DecidableEq κ] [BoltKey κ] (key key1 : κ)
    (value : ν) (hne : key1 ≠ key) :
    ∀ l : List (κ × ν), findKey key1 (insertEntry key value l) = findKey key1 l := by
  intro l
  induction l with
  | nil => simp [insertEntry, findKey, hne]
  | cons e rest ih =>
    obtain ⟨k, v⟩ := e
    unfold insertEntry
    by_cases h1 : key = k
    · subst h1
      simp [findKey, hne]
    · by_cases h2 : BoltKey.lt key k = true
      · simp [h1, h2, findKey, hne]
      · simp only [h1, h2, if_false, findKey, ih]

/-- After the batch is stored, every key the index had is still a key, and the id
of every post of the batch is a key. -/
theorem storePosts_index (batch : List Post) :
    ∀ (index : Bucket String Bytes) (posts : Bucket Bytes Raw)
      (res : Bucket String Bytes × Bucket Bytes Raw × List Nat),
      storePosts batch index posts = .ok res →
      (∀ key, (index.Get key).isSome = true → (res.1.Get key).isSome = true) ∧
      (∀ p ∈ batch, known res.1 p = true) := by
  induction batch with
  | nil =>
    intro index posts res h
    simp only [storePosts, Except.ok.injEq] at h
    subst h
    simp
  | cons post rest ih =>
    intro index posts res h
    obtain ⟨redditID, ids, hid, _, hrest, _⟩ := storePosts_cons_inv post rest index posts res h
    obtain ⟨hmono, hbatch⟩ := ih _ _ _ hrest
    simp only at hmono hbatch
    have hstep : ∀ key, (index.Get key).isSome = true →
        (findKey key (insertEntry redditID (itob ((posts.sequence + 1) % 2 ^ 64))
          index.entries)).isSome = true := by
      intro key hk
      by_cases hkey : key = redditID
      · rw [hkey, findKey_insertEntry_same]; rfl
      · rw [findKey_insertEntry_other _ _ _ hkey]; exact hk
    constructor
    · intro key hk
      exact hmono key (hstep key hk)
    · intro p hp
      rcases List.mem_cons.1 hp with h1 | h1
      · subst h1
        have : (res.1.Get redditID).isSome = true := by
          apply hmono
          show (findKey redditID _).isSome = true
          rw [findKey_insertEntry_same]; rfl
        simp [known, hid, this]
      · exact hbatch p h1

/-- If the loop of `getNewPosts` returns, it returns what it was given followed by
new posts; and over an index that has grown to hold the ids of those new posts
it returns, with at least as much fuel, what it was given and nothing new. -/
theorem getNewPostsLoop_again (saved : SavedEndpoint) (index index1 : Bucket String Bytes)
    (hmono : ∀ key, (index.Get key).isSome = true → (index1.Get key).isSome = true) :
    ∀ (fuel : Nat) (u : UserSavedResponse) (acc res : List Post) (u1 : UserSavedResponse),
      getNewPostsLoop saved index fuel u acc = .ok (res, u1) →
      ∃ new, res = acc ++ new ∧
        ((∀ p ∈ new, known index1 p = true) →
          ∀ fuel2, fuel ≤ fuel2 → ∃ u2, getNewPostsLoop saved index1 fuel2 u acc = .ok (acc, u2)) := by
  intro fuel
  induction fuel with
  | zero => intro u acc res u1 h; simp [getNewPostsLoop] at h
  | succ f ih =>
    intro u acc res u1 h
    unfold getNewPostsLoop at h
    cases hnext : u.NextPost saved with
    | error e => simp [hnext] at h
    | ok r =>
      obtain ⟨post, u3⟩ := r
      simp only [hnext] at h
      cases post with
      | none =>
        simp only [Except.ok.injEq, Prod.mk.injEq] at h
        refine ⟨[], by simp [h.1], ?_⟩
        intro _ fuel2 hf
        obtain ⟨f2, rfl⟩ : ∃ f2, fuel2 = f2 + 1 := ⟨fuel2 - 1, by omega⟩
        exact ⟨u3, by simp [getNewPostsLoop, hnext]⟩
      | some post =>
        simp only at h
        cases hid : getID post with
        | none =>
          simp only [hid] at h
          obtain ⟨new, hres, hagain⟩ := ih u3 acc res u1 h
          refine ⟨new, hres, ?_⟩
          intro hnew fuel2 hf
          obtain ⟨f2, rfl⟩ : ∃ f2, fuel2 = f2 + 1 := ⟨fuel2 - 1, by omega⟩
          obtain ⟨u2, h2⟩ := hagain hnew f2 (by omega)
          exact ⟨u2, by simp [getNewPostsLoop, hnext, hid, h2]⟩
        | some id =>
          simp only [hid] at h
          by_cases hget : (index.Get id).isSome = true
          · simp only [hget, if_true, Except.ok.injEq, Prod.mk.injEq] at h
            refine ⟨[], by simp [h.1], ?_⟩
            intro _ fuel2 hf
            obtain ⟨f2, rfl⟩ : ∃ f2, fuel2 = f2 + 1 := ⟨fuel2 - 1, by omega⟩
            exact ⟨u3, by simp [getNewPostsLoop, hnext, hid, hmono id hget]⟩
          · simp only [hget, if_false] at h
            obtain ⟨new, hres, _⟩ := ih u3 (acc ++ [post]) res u1 h
            refine ⟨post :: new, by simp [hres], ?_⟩
            intro hnew fuel2 hf
            obtain ⟨f2, rfl⟩ : ∃ f2, fuel2 = f2 + 1 := ⟨fuel2 - 1, by omega⟩
            have hk := hnew post (List.mem_cons_self _ _)
            simp only [known, hid] at hk
            exact ⟨u3, by simp [getNewPostsLoop, hnext, hid, hk]⟩

theorem update_nocommit (w : World) (fuel : Nat) (c : RedditRSS) (h : w.commit = false) :
    (c.update w fuel).batch = none := by
  unfold RedditRSS.update
  cases hg : c.client.GetUserSaved w.saved c.user with
  | error e => rfl
  | ok sp =>
    simp only [DB.Update]
    cases htx : updateTx w.saved fuel sp c.db with
    | error e => rfl
    | ok res => simp [h]

theorem buildPostsFeed_again (c : RedditRSS) :
    (c.buildPostsFeed.1).buildPostsFeed = c.buildPostsFeed := by
  unfold RedditRSS.buildPostsFeed
  cases hp : c.db.posts with
  | none => simp [hp]
  | some b =>
    simp only
    cases hf : feedItems b.entries with
    | error e => simp [hp, hf]
    | ok items => simp [hp, hf]

theorem storePosts_ok (batch : List Post) :
    ∀ (index : Bucket String Bytes) (posts : Bucket Bytes Raw),
      (∀ p ∈ batch, ∃ id, getID p = some id ∧ BoltKey.size id ≠ 0 ∧
        BoltKey.size id ≤ MaxKeySize) →
      ∃ res, storePosts batch index posts = .ok res := by
  induction batch with
  | nil => intro index posts _; exact ⟨_, rfl⟩
  | cons post rest ih =>
    intro index posts h
    obtain ⟨id, hid, h0, hmax⟩ := h post (List.mem_cons_self _ _)
    unfold storePosts
    simp only [hid, jsonMarshal, Bucket.NextSequence, Put_itob]
    have hput : ∀ v, index.Put id v = .ok { index with entries := insertEntry id v index.entries } := by
      intro v
      unfold Bucket.Put
      rw [if_neg h0, if_neg (by omega)]
    simp only [hput]
    obtain ⟨res, hres⟩ := ih { index with entries := insertEntry id _ index.entries }
      { entries := insertEntry (itob ((posts.sequence + 1) % 2 ^ 64)) (Raw.json post) posts.entries,
        sequence := (posts.sequence + 1) % 2 ^ 64 }
      (fun p hp => h p (List.mem_cons_of_mem _ hp))
    rw [hres]
    exact ⟨_, rfl⟩

/-- A cycle commits when the endpoint serves a chain of pages none of which, after
the first, is empty, every id is a non-blank key of at most `MaxKeySize` bytes,
the fuel suffices and the commit succeeds. -/
theorem update_commits_on_chain (w : World) (fuel : Nat) (c : RedditRSS)
    (pages : List userSavedResponse)
    (hchain : servesChain w.saved c.user c.client.cfg.Username pages = true)
    (hne : ∀ q ∈ pages.tail, q.Data.Children ≠ [])
    (hfuel : (chainPosts pages).length < fuel)
    (hids : ∀ p ∈ chainPosts pages, ∀ id, getID p = some id →
      BoltKey.size id ≠ 0 ∧ BoltKey.size id ≤ MaxKeySize)
    (hcommit : w.commit = true) :
    (c.update w fuel).batch.isSome = true := by
  obtain ⟨u0, hg, hnew⟩ :=
    getNewPosts_on_chain w.saved c.client c.user c.db.indexBucket pages hchain hne
  obtain ⟨u1, hnew1, _⟩ := hnew fuel hfuel
  have hbatch : ∀ p ∈ ((chainPosts pages).takeWhile
      (fun p => !known c.db.indexBucket p)).filter hasID,
      ∃ id, getID p = some id ∧ BoltKey.size id ≠ 0 ∧ BoltKey.size id ≤ MaxKeySize := by
    intro p hp
    obtain ⟨hmem, hhas⟩ := List.mem_filter.1 hp
    have hmem1 := (List.takeWhile_sublist _).subset hmem
    cases hid : getID p with
    | none => simp [hasID, hid] at hhas
    | some id => exact ⟨id, rfl, hids p hmem1 id hid⟩
  obtain ⟨res, hres⟩ := storePosts_ok _ c.db.indexBucket c.db.postsBucket hbatch
  have hi : CreateBucketIfNotExists c.db.index = .ok c.db.indexBucket := by
    unfold CreateBucketIfNotExists DB.indexBucket; cases c.db.index <;> rfl
  have hp : CreateBucketIfNotExists c.db.posts = .ok c.db.postsBucket := by
    unfold CreateBucketIfNotExists DB.postsBucket; cases c.db.posts <;> rfl
  have htx : ∃ r, updateTx w.saved fuel u0 c.db = .ok r := by
    obtain ⟨i1, p1, ids⟩ := res
    refine ⟨({ index := some i1, posts := some p1 },
      { newPosts := ((chainPosts pages).takeWhile
          (fun p => !known c.db.indexBucket p)).filter hasID,
        savedPosts := u1, ids := ids }), ?_⟩
    simp only [updateTx, hi, hp, hnew1, hres]
  obtain ⟨r, hr⟩ := htx
  rw [(update_commit w fuel c u0 r hg hr hcommit).2.1]
  rfl

/-- C2: when a cycle has committed its transaction, a second cycle against the same
endpoint (with at least as much fuel, whether or not its commit succeeds) finds
an empty batch of new posts and leaves the cache exactly as the first cycle left
it: database (content log, index, sequence counter) and feed; it stores no
record, and it fails only if its commit fails or the first cycle failed to build
the feed. -/
theorem C2_second_cycle_stores_nothing (w w2 : World) (fuel fuel2 : Nat) (c : RedditRSS)
    (hsame : w2.saved = w.saved) (hfuel : fuel ≤ fuel2)
    (hfirst : (c.update w fuel).batch.isSome = true) :
    (∃ sp u1,
      (c.update w fuel).cache.client.GetUserSaved w2.saved (c.update w fuel).cache.user = .ok sp ∧
      getNewPosts w2.saved fuel2 (c.update w fuel).cache.db.indexBucket sp = .ok ([], u1)) ∧
    ((c.update w fuel).cache.update w2 fuel2).cache = (c.update w fuel).cache ∧
    ((c.update w fuel).cache.update w2 fuel2).storedIds = [] ∧
    ((c.update w fuel).cache.update w2 fuel2).storedPosts = [] ∧
    (w2.commit = true → (c.update w fuel).err = none →
      ((c.update w fuel).cache.update w2 fuel2).err = none) := by
  obtain ⟨b, hb⟩ := Option.isSome_iff_exists.1 hfirst
  obtain ⟨sp, index1, posts1, hg, hnew, hstore, hdb, hclient, huser⟩ :=
    update_batch_inv w fuel c b hb
  obtain ⟨hmono, hknown⟩ := storePosts_index _ _ _ _ hstore
  simp only at hmono hknown
  obtain ⟨new, hres, hagain⟩ :=
    getNewPostsLoop_again w.saved c.db.indexBucket index1 hmono fuel sp [] _ _ hnew
  simp only [List.nil_append] at hres
  obtain ⟨u2, hloop2⟩ := hagain (by rw [← hres]; exact hknown) fuel2 hfuel
  have hg2 : (c.update w fuel).cache.client.GetUserSaved w2.saved (c.update w fuel).cache.user
      = .ok sp := by rw [hclient, huser, hsame]; exact hg
  have hidx : (c.update w fuel).cache.db.indexBucket = index1 := by rw [hdb]; rfl
  have hposts : (c.update w fuel).cache.db.postsBucket = posts1 := by rw [hdb]; rfl
  have hnew2 : getNewPosts w2.saved fuel2 (c.update w fuel).cache.db.indexBucket sp
      = .ok ([], u2) := by rw [hidx, hsame]; exact hloop2
  have htx : updateTx w2.saved fuel2 sp (c.update w fuel).cache.db
      = .ok ((c.update w fuel).cache.db, { newPosts := [], savedPosts := u2, ids := [] }) := by
    have hnew3 : getNewPosts w2.saved fuel2 index1 sp = .ok ([], u2) := by
      rw [← hidx]; exact hnew2
    rw [hdb]
    simp [updateTx, CreateBucketIfNotExists, hnew3, storePosts]
  refine ⟨⟨sp, u2, hg2, hnew2⟩, ?_⟩
  by_cases hc : w2.commit = true
  · obtain ⟨hcache, hbatch, herr⟩ := update_commit w2 fuel2 _ sp _ hg2 htx hc
    simp only at hcache hbatch herr
    -- the first cycle left the cache as `buildPostsFeed` returned it
    have hfirstc : ∃ c0 : RedditRSS, (c.update w fuel).cache = c0.buildPostsFeed.1 ∧
        (c.update w fuel).err = c0.buildPostsFeed.2.map
          (fun e => (Stage.build, e.wrap "build redit posts rss: ")) := by
      cases htx1 : updateTx w.saved fuel sp c.db with
      | error e => simp [RedditRSS.update, hg, DB.Update, htx1] at hb
      | ok res =>
        by_cases hc1 : w.commit = true
        · obtain ⟨h1, _, h3⟩ := update_commit w fuel c sp res hg htx1 hc1
          exact ⟨_, h1, h3⟩
        · simp [RedditRSS.update, hg, DB.Update, htx1, hc1] at hb
    obtain ⟨c0, hc0, herr0⟩ := hfirstc
    have hself : RedditRSS.buildPostsFeed
        { (c.update w fuel).cache with db := (c.update w fuel).cache.db }
        = c0.buildPostsFeed := by
      have : ({ (c.update w fuel).cache with db := (c.update w fuel).cache.db } : RedditRSS)
          = (c.update w fuel).cache := rfl
      rw [this, hc0, buildPostsFeed_again]
    refine ⟨?_, ?_, ?_, ?_⟩
    · rw [hcache, hself, ← hc0]
    · simp [Cycle.storedIds, hbatch]
    · simp [Cycle.storedPosts, hbatch]
    · intro _ h1
      rw [herr, hself, ← herr0, h1]
  · have hfail := update_fails_before_commit w2 fuel2 (c.update w fuel).cache
      (Or.inr ⟨sp, hg2, Or.inr (by simpa using hc)⟩)
    refine ⟨hfail.2.1, hfail.2.2.2.2, ?_, fun h => absurd h hc⟩
    have hnb : ((c.update w fuel).cache.update w2 fuel2).batch = none :=
      update_nocommit w2 fuel2 _ (by simpa using hc)
    simp [Cycle.storedPosts, hnb]

/-- C2 at two cycles from an empty store against the list `[a, b, c, d]` served as
three pages: the second cycle leaves the cache as the first left it and stores
no post. -/
theorem C2_second_cycle_stores_nothing_witness :
    ((freshCache.update { saved := abcdEndpoint, commit := true } 6).cache.update
        { saved := abcdEndpoint, commit := true } 6).cache
      = (freshCache.update { saved := abcdEndpoint, commit := true } 6).cache ∧
    ((freshCache.update { saved := abcdEndpoint, commit := true } 6).cache.update
        { saved := abcdEndpoint, commit := true } 6).storedPosts = [] ∧
    ((freshCache.update { saved := abcdEndpoint, commit := true } 6).cache.update
        { saved := abcdEndpoint, commit := true } 6).err = none :=
  ⟨(C2_second_cycle_stores_nothing { saved := abcdEndpoint, commit := true }
      { saved := abcdEndpoint, commit := true } 6 6 freshCache rfl (le_refl 6) (by decide)).2.1,
   (C2_second_cycle_stores_nothing { saved := abcdEndpoint, commit := true }
      { saved := abcdEndpoint, commit := true } 6 6 freshCache rfl (le_refl 6) (by decide)).2.2.2.1,
   (C2_second_cycle_stores_nothing { saved := abcdEndpoint, commit := true }
      { saved := abcdEndpoint, commit := true } 6 6 freshCache rfl (le_refl 6) (by decide)).2.2.2.2
      rfl (by decide)⟩

/-! ## C3: index and content log -/

theorem insertEntry_perm {κ ν : Type} [DecidableEq κ] [BoltKey κ] (key : κ) (value : ν) :
    ∀ l : List (κ × ν), key ∉ l.map Prod.fst →
      (insertEntry key value l).Perm ((key, value) :: l) := by
  intro l
  induction l with
  | nil => intro _; exact List.Perm.refl _
  | cons e rest ih =>
    intro hn
    obtain ⟨k, v⟩ := e
    simp only [List.map_cons, List.mem_cons, not_or] at hn
    unfold insertEntry
    rw [if_neg hn.1]
    by_cases h2 : BoltKey.lt key k = true
    · rw [if_pos h2]
    · rw [if_neg h2]
      exact (List.Perm.cons _ (ih hn.2)).trans (List.Perm.swap _ _ _)

theorem findKey_of_mem_nodup {κ ν : Type} [DecidableEq κ] (key : κ) (value : ν) :
    ∀ l : List (κ × ν), (l.map Prod.fst).Nodup → (key, value) ∈ l →
      findKey key l = some value := by
  intro l
  induction l with
  | nil => intro _ h; simp at h
  | cons e rest ih =>
    intro hnd hmem
    obtain ⟨k, v⟩ := e
    simp only [List.map_cons, List.nodup_cons] at hnd
    rcases List.mem_cons.1 hmem with h | h
    · simp only [Prod.mk.injEq] at h
      simp [findKey, h.1, h.2]
    · have hne : key ≠ k := by
        intro hk
        apply hnd.1
        rw [← hk]
        exact List.mem_map_of_mem Prod.fst h
      simp only [findKey, hne, if_false]
      exact ih hnd.2 h

theorem filter_eq_singleton {α : Type} (P : α → Bool) (a : α) :
    ∀ l : List α, l.Nodup → a ∈ l → (∀ e ∈ l, P e = true ↔ e = a) → l.filter P = [a] := by
  intro l
  induction l with
  | nil => intro _ h; simp at h
  | cons x xs ih =>
    intro hnd hmem hP
    simp only [List.nodup_cons] at hnd
    by_cases hx : x = a
    · subst hx
      have hPx : P x = true := (hP x (List.mem_cons_self _ _)).2 rfl
      have hrest : xs.filter P = [] := by
        rw [List.filter_eq_nil_iff]
        intro e he hPe
        have := (hP e (List.mem_cons_of_mem _ he)).1 hPe
        rw [this] at he
        exact hnd.1 he
      simp [List.filter_cons, hPx, hrest]
    · have hPx : P x = false := by
        cases h : P x with
        | false => rfl
        | true => exact absurd ((hP x (List.mem_cons_self _ _)).1 h) hx
      have hmem1 : a ∈ xs := by
        rcases List.mem_cons.1 hmem with h | h
        · exact absurd h.symm hx
        · exact h
      simp only [List.filter_cons, hPx]
      exact ih hnd.2 hmem1 (fun e he => hP e (List.mem_cons_of_mem _ he))

/-- The posts `getNewPosts` adds carry an id that is no key of the index. -/
theorem getNewPostsLoop_fresh (saved : SavedEndpoint) (index : Bucket String Bytes) :
    ∀ (fuel : Nat) (u : UserSavedResponse) (acc res : List Post) (u1 : UserSavedResponse),
      getNewPostsLoop saved index fuel u acc = .ok (res, u1) →
      ∃ new, res = acc ++ new ∧
        ∀ p ∈ new, ∃ id, getID p = some id ∧ index.Get id = none := by
  intro fuel
  induction fuel with
  | zero => intro u acc res u1 h; simp [getNewPostsLoop] at h
  | succ f ih =>
    intro u acc res u1 h
    unfold getNewPostsLoop at h
    cases hnext : u.NextPost saved with
    | error e => simp [hnext] at h
    | ok r =>
      obtain ⟨post, u3⟩ := r
      simp only [hnext] at h
      cases post with
      | none =>
        simp only [Except.ok.injEq, Prod.mk.injEq] at h
        exact ⟨[], by simp [h.1], by simp⟩
      | some post =>
        simp only at h
        cases hid : getID post with
        | none =>
          simp only [hid] at h
          exact ih u3 acc res u1 h
        | some id =>
          simp only [hid] at h
          by_cases hget : (index.Get id).isSome = true
          · simp only [hget, if_true, Except.ok.injEq, Prod.mk.injEq] at h
            exact ⟨[], by simp [h.1], by simp⟩
          · simp only [hget, if_false] at h
            obtain ⟨new, hres, hnew⟩ := ih u3 (acc ++ [post]) res u1 h
            refine ⟨post :: new, by simp [hres], ?_⟩
            intro p hp
            rcases List.mem_cons.1 hp with h1 | h1
            · subst h1
              refine ⟨id, hid, ?_⟩
              cases hg : index.Get id with
              | none => rfl
              | some v => simp [hg] at hget
            · exact hnew p h1

/-- Storing a batch keeps index and content log coherent, when the counter does not
wrap, no id occurs twice in the batch and no id of the batch is a key of the
index. -/
theorem storePosts_coherent (batch : List Post) :
    ∀ (index : Bucket String Bytes) (posts : Bucket Bytes Raw)
      (res : Bucket String Bytes × Bucket Bytes Raw × List Nat),
      storePosts batch index posts = .ok res →
      Coherent index posts → posts.sequence + batch.length < 2 ^ 64 →
      (batch.filterMap getID).Nodup →
      (∀ p ∈ batch, ∀ id, getID p = some id → index.Get id = none) →
      Coherent res.1 res.2.1 := by
  induction batch with
  | nil =>
    intro index posts res h hco _ _ _
    simp only [storePosts, Except.ok.injEq] at h
    subst h
    exact hco
  | cons post rest ih =>
    intro index posts res h hco hb hnd hfresh
    obtain ⟨redditID, ids, hid, _, hrest, _⟩ := storePosts_cons_inv post rest index posts res h
    simp only [List.length_cons] at hb
    have hmod : (posts.sequence + 1) % 2 ^ 64 = posts.sequence + 1 :=
      Nat.mod_eq_of_lt (by omega)
    rw [hmod] at hrest
    have hnone : index.Get redditID = none := hfresh post (List.mem_cons_self _ _) _ hid
    simp only [List.filterMap_cons, hid, List.nodup_cons] at hnd
    -- the new key is not a key of the content log
    have hkey : itob (posts.sequence + 1) ∉ posts.entries.map Prod.fst := by
      intro hmem
      obtain ⟨e, he, hek⟩ := List.mem_map.1 hmem
      obtain ⟨m, p, id, heq, hm, _, _⟩ := hco.recs e he
      rw [heq] at hek
      have := itob_injective m (posts.sequence + 1) (by have := hco.bound; omega) (by omega) hek
      omega
    have hperm := insertEntry_perm (itob (posts.sequence + 1)) (Raw.json post) posts.entries hkey
    have hget : ∀ k, findKey k (insertEntry redditID (itob (posts.sequence + 1)) index.entries)
        = if k = redditID then some (itob (posts.sequence + 1)) else index.Get k := by
      intro k
      by_cases hk : k = redditID
      · rw [if_pos hk, hk, findKey_insertEntry_same]
      · rw [if_neg hk, findKey_insertEntry_other _ _ _ hk]; rfl
    apply ih _ _ _ hrest
    · constructor
      · intro e he
        rcases List.mem_cons.1 (hperm.mem_iff.1 he) with h1 | h1
        · refine ⟨posts.sequence + 1, post, redditID, h1, le_refl _, hid, ?_⟩
          show findKey redditID _ = _
          rw [hget, if_pos rfl]
        · obtain ⟨m, p, id, heq, hm, hpid, hidx⟩ := hco.recs e h1
          refine ⟨m, p, id, heq, Nat.le_succ_of_le hm, hpid, ?_⟩
          show findKey id _ = _
          have hne : id ≠ redditID := by
            intro h2
            rw [h2, hnone] at hidx
            simp at hidx
          rw [hget, if_neg hne]
          exact hidx
      · show posts.sequence + 1 < 2 ^ 64
        omega
      · have := (hperm.map Prod.fst).nodup_iff
        rw [this]
        simp only [List.map_cons, List.nodup_cons]
        exact ⟨hkey, hco.nodup⟩
      · intro id key hk
        have hk1 : (if id = redditID then some (itob (posts.sequence + 1)) else index.Get id)
            = some key := by rw [← hget]; exact hk
        by_cases h2 : id = redditID
        · rw [if_pos h2] at hk1
          simp only [Option.some.injEq] at hk1
          refine ⟨post, hperm.mem_iff.2 ?_, by rw [h2]; exact hid⟩
          rw [← hk1]
          exact List.mem_cons_self _ _
        · rw [if_neg h2] at hk1
          obtain ⟨p, hp, hpid⟩ := hco.idx id key hk1
          exact ⟨p, hperm.mem_iff.2 (List.mem_cons_of_mem _ hp), hpid⟩
    · show posts.sequence + 1 + rest.length < 2 ^ 64
      omega
    · exact hnd.2
    · intro p hp id hpid
      show findKey id _ = none
      have hne : id ≠ redditID := by
        intro h2
        apply hnd.1
        rw [← h2]
        exact List.mem_filterMap.2 ⟨p, hp, hpid⟩
      rw [hget, if_neg hne]
      exact hfresh p (List.mem_cons_of_mem _ hp) id hpid

theorem Coherent_empty : Coherent DB.empty.indexBucket DB.empty.postsBucket :=
  ⟨by intro e he; simp [DB.empty, DB.postsBucket, Bucket.empty] at he,
   by simp [DB.empty, DB.postsBucket, Bucket.empty],
   by simp [DB.empty, DB.postsBucket, Bucket.empty],
   by intro id key h; simp [DB.empty, DB.indexBucket, Bucket.empty, Bucket.Get, findKey] at h⟩

/-- One cycle keeps index and content log coherent. -/
theorem update_coherent (w : World) (fuel : Nat) (c : RedditRSS)
    (hco : Coherent c.db.indexBucket c.db.postsBucket)
    (hb : c.db.sequence + (c.update w fuel).storedIds.length < 2 ^ 64)
    (hnd : ((c.update w fuel).storedPosts.filterMap getID).Nodup) :
    Coherent (c.update w fuel).cache.db.indexBucket (c.update w fuel).cache.db.postsBucket := by
  cases hbat : (c.update w fuel).batch with
  | none => rw [update_nobatch w fuel c hbat]; exact hco
  | some b =>
    obtain ⟨sp, index, posts, _, hnew, hs, hdb, _⟩ := update_batch_inv w fuel c b hbat
    simp only [Cycle.storedIds, Cycle.storedPosts, hbat] at hb hnd
    obtain ⟨new, hres, hfresh⟩ := getNewPostsLoop_fresh _ _ _ _ _ _ _ hnew
    simp only [List.nil_append] at hres
    have hlen := (storePosts_ids _ _ _ _ hs).1
    simp only at hlen
    rw [DB.sequence_eq, hlen] at hb
    have := storePosts_coherent _ _ _ _ hs hco hb hnd (by
      intro p hp id hpid
      rw [hres] at hp
      obtain ⟨id1, h1, h2⟩ := hfresh p hp
      rw [h1] at hpid
      simp only [Option.some.injEq] at hpid
      rw [← hpid]; exact h2)
    rw [hdb]
    exact this

theorem runCycles_coherent (cycles : List (World × Nat)) :
    ∀ c : RedditRSS, Coherent c.db.indexBucket c.db.postsBucket →
      c.db.sequence + (runCycles cycles c).2.length < 2 ^ 64 →
      (∀ batch ∈ storedBatches cycles c, (batch.filterMap getID).Nodup) →
      Coherent (runCycles cycles c).1.db.indexBucket (runCycles cycles c).1.db.postsBucket := by
  induction cycles with
  | nil => intro c hco _ _; exact hco
  | cons wf rest ih =>
    intro c hco hb hnd
    obtain ⟨w, fuel⟩ := wf
    simp only [runCycles, List.length_append] at hb ⊢
    simp only [storedBatches, List.mem_cons, forall_eq_or_imp] at hnd
    have h1 := update_storedIds w fuel c (by omega)
    exact ih _ (update_coherent w fuel c hco (by omega) hnd.1) (by rw [h1.2]; omega) hnd.2

/-- What coherence says about one index entry: exactly one record carries the id,
and it is the record under the key of the entry. -/
theorem Coherent_entry (db : DB) (hco : Coherent db.indexBucket db.postsBucket)
    (id : String) (key : Bytes) (h : db.indexBucket.Get id = some key) :
    ∃ p, getID p = some id ∧ recordsWithID db id = [(key, Raw.json p)] ∧
      db.postsBucket.Get key = some (Raw.json p) := by
  obtain ⟨p, hp, hpid⟩ := hco.idx id key h
  refine ⟨p, hpid, ?_, findKey_of_mem_nodup _ _ _ hco.nodup hp⟩
  unfold recordsWithID
  apply filter_eq_singleton _ _ _ (List.Nodup.of_map _ hco.nodup) hp
  intro e he
  obtain ⟨m, q, id1, heq, _, hqid, hidx⟩ := hco.recs e he
  constructor
  · intro hP
    rw [heq] at hP
    simp only [jsonUnmarshal, hqid, beq_iff_eq, Option.some.injEq] at hP
    rw [hP, h] at hidx
    simp only [Option.some.injEq] at hidx
    -- two records under the same key are the same record
    have h1 : findKey key db.postsBucket.entries = some (Raw.json q) := by
      apply findKey_of_mem_nodup _ _ _ hco.nodup
      rw [hidx, ← heq]; exact he
    have h2 := findKey_of_mem_nodup _ _ _ hco.nodup hp
    rw [h1] at h2
    simp only [Option.some.injEq] at h2
    rw [heq, ← hidx, h2]
  · intro hea
    rw [hea]
    simp [jsonUnmarshal, hpid]

/-- C3 as stated fails on the code: from an empty store, one successful cycle over a
list in which the id `a` occurs twice stores two records with that id (the index
entry points to the second). -/
theorem C3_repeated_id_stored_twice :
    (freshCache.update
      { saved := singlePage [linkPost "a" "A", linkPost "a" "A"], commit := true } 5).err = none ∧
    (freshCache.update
      { saved := singlePage [linkPost "a" "A", linkPost "a" "A"], commit := true } 5).cache.db.indexBucket.Get
        "a" = some (itob 2) ∧
    recordsWithID (freshCache.update
      { saved := singlePage [linkPost "a" "A", linkPost "a" "A"], commit := true } 5).cache.db "a"
      = [(itob 1, Raw.json (linkPost "a" "A")), (itob 2, Raw.json (linkPost "a" "A"))] := by
  decide

/-- C3, amended: starting from an empty store, after any sequence of cycles in which
no stored batch holds an id more than once (and the 64-bit counter does not
wrap), for every id that is a key of the index the content log holds exactly one
record of a post with that id, and the index entry is the key of that record. -/
theorem C3_index_coherence_without_repeats (cycles : List (World × Nat)) (c : RedditRSS)
    (hempty : c.db = DB.empty)
    (hbound : (runCycles cycles c).2.length < 2 ^ 64)
    (hnodup : ∀ batch ∈ storedBatches cycles c, (batch.filterMap getID).Nodup)
    (id : String) (key : Bytes)
    (hin : (runCycles cycles c).1.db.indexBucket.Get id = some key) :
    ∃ p, getID p = some id ∧
      recordsWithID (runCycles cycles c).1.db id = [(key, Raw.json p)] ∧
      (runCycles cycles c).1.db.postsBucket.Get key = some (Raw.json p) := by
  have hco : Coherent c.db.indexBucket c.db.postsBucket := by
    rw [hempty]; exact Coherent_empty
  have hseq : c.db.sequence = 0 := by rw [hempty]; rfl
  exact Coherent_entry _ (runCycles_coherent cycles c hco (by rw [hseq]; omega) hnodup) id key hin

/-- C3, amended, at three cycles from an empty store and the id `d`, stored in the
third cycle under the sequence number 3. -/
theorem C3_index_coherence_without_repeats_witness :
    ∃ p, getID p = some "d" ∧
      recordsWithID (runCycles threeCycles freshCache).1.db "d" = [(itob 3, Raw.json p)] ∧
      (runCycles threeCycles freshCache).1.db.postsBucket.Get (itob 3) = some (Raw.json p) :=
  C3_index_coherence_without_repeats threeCycles freshCache rfl (by decide) (by decide)
    "d" (itob 3) (by decide)

end Something
